import Mathlib

/-!
Shallow embedding of the ITAS skill-matching core
(`core/services/skill_extractor.py`, `core/services/matching_engine.py`,
and the `Employee.current_workload` property of `core/models.py`).

Conventions of the embedding:
* Python floats are modelled as exact rationals (`ℚ`).
* Python strings are modelled through their character lists (`List Char`);
  `str.lower` is modelled by ASCII case folding (`Char.toLower`), and the
  regex character classes `[^a-z0-9]`, `\s`, `\w` by the corresponding
  ASCII character predicates.
* Python dicts that the source builds in insertion order are modelled as
  association lists in the same insertion order.
* `round(x, 2)` is modelled as rounding to an integer multiple of 1/100
  (Python's float rounding differs only on exact half-ties).
-/

set_option maxRecDepth 100000

namespace ITAS

/-- Clamp to `[lo, hi]`, as Python's `max(lo, min(hi, x))` idiom. -/
def clamp (lo hi x : ℚ) : ℚ := max lo (min hi x)

/-- Model of Python `round(x, 2)`: round to a multiple of 1/100. -/
def round2 (x : ℚ) : ℚ := (round (x * 100) : ℚ) / 100

/-! ## Character-level utilities (models of the `str` / `re` operations used) -/

/-- Bracket characters removed by `re.sub(r"[()\[\]{}]", " ", key)`. -/
def bracketChars : List Char := ['(', ')', '[', ']', '\x7b', '\x7d']

/-- Model of `str.strip()`: drop leading and trailing whitespace. -/
def trimWS (l : List Char) : List Char :=
  ((l.dropWhile Char.isWhitespace).reverse.dropWhile Char.isWhitespace).reverse

/-- Model of `str.replace("&", "and")` (a one-character pattern, hence a
per-character expansion). -/
def ampExpand (l : List Char) : List Char :=
  l.flatMap (fun c => if c = '&' then ['a', 'n', 'd'] else [c])

/-- One step of `re.sub(r"[()\[\]{}]", " ", key)`. -/
def bracketToSpace (c : Char) : Char := if c ∈ bracketChars then ' ' else c

/-- One step of `re.sub(r"[_]+", " ", key)`; replacing each underscore by a
space is equivalent to replacing each run, because the following
`re.sub(r"\s+", " ")` collapses the resulting space runs. -/
def underscoreToSpace (c : Char) : Char := if c = '_' then ' ' else c

/-- Model of `re.sub(r"\s+", " ", key)`: collapse every whitespace run to a
single `' '`.  The flag records whether the previous character was
whitespace. -/
def squeezeWS : Bool → List Char → List Char
  | _, [] => []
  | prevWS, c :: t =>
    if c.isWhitespace then
      if prevWS then squeezeWS true t else ' ' :: squeezeWS true t
    else c :: squeezeWS false t

/-- Model of `str.replace(" / ", "/")`: non-overlapping left-to-right
replacement of the three-character pattern. -/
def replSlash : List Char → List Char
  | ' ' :: '/' :: ' ' :: t => '/' :: replSlash t
  | c :: t => c :: replSlash t
  | [] => []

/-- The cleaning pipeline of `SkillExtractor.normalize_skill_key` before the
alias lookup: strip, lower, `&`→`and`, brackets→space, underscores→space,
collapse whitespace and strip, `" / "`→`"/"`. -/
def cleanChars (l : List Char) : List Char :=
  replSlash (trimWS (squeezeWS false
    (((ampExpand ((trimWS l).map Char.toLower)).map bracketToSpace).map underscoreToSpace)))

/-- Character invariant of cleaned keys: stable under lower-casing, free of
`&`, brackets and underscores, and the only whitespace is `' '`. -/
def goodChar (c : Char) : Prop :=
  c.toLower = c ∧ c ≠ '&' ∧ c ∉ bracketChars ∧ c ≠ '_' ∧ (c.isWhitespace → c = ' ')

/-- No two adjacent whitespace characters (the shape left by whitespace
collapsing). -/
def noTwoWS (a b : Char) : Prop := ¬(a.isWhitespace ∧ b.isWhitespace)

/-! ## The static skill tables of `SkillExtractor` -/

/-- The curated skill vocabulary `SkillExtractor.TECHNICAL_SKILLS`. -/
def TECHNICAL_SKILLS : List String :=
  [ "python", "java", "javascript", "typescript", "c++", "c#", "c", "go", "rust", "kotlin",
    "swift", "php", "ruby", "scala", "r", "matlab", "perl", "shell", "bash", "powershell",
    "html", "css", "react", "vue", "angular", "svelte", "sveltekit", "node.js", "express",
    "django", "flask", "fastapi", "spring", "laravel", "asp.net", "jquery", "bootstrap",
    "sass", "less", "webpack", "vite", "tailwind", "redux", "next.js", "nuxt.js",
    "sql", "postgresql", "mysql", "mongodb", "redis", "oracle", "sqlite", "cassandra",
    "elasticsearch", "dynamodb", "neo4j", "snowflake", "bigquery",
    "aws", "azure", "gcp", "docker", "kubernetes", "jenkins", "git", "ci/cd", "terraform",
    "ansible", "linux", "unix", "nginx", "apache", "prometheus", "grafana",
    "machine learning", "deep learning", "artificial intelligence", "tensorflow", "pytorch",
    "scikit-learn", "pandas", "numpy", "data analysis", "data science", "nlp",
    "natural language processing", "xgboost", "lightgbm", "spark", "hadoop",
    "github", "gitlab", "bitbucket", "jira", "confluence", "slack", "agile", "scrum",
    "kanban", "figma", "sketch", "adobe", "photoshop", "illustrator", "postman", "swagger",
    "openapi",
    "testing", "unit testing", "integration testing", "test automation", "selenium",
    "jest", "pytest", "junit", "cypress",
    "kafka", "rabbitmq",
    "android", "ios", "react native", "flutter", "xamarin",
    "api", "rest", "graphql", "microservices", "devops", "tdd", "bdd", ".net",
    "ux", "ui", "ui/ux", "design", "research", "analytics", "documentation",
    "process mapping", "stakeholder management", "project management", "leadership",
    "mentoring", "etl", "data engineering" ]

/-- The alias table `SkillExtractor.SKILL_ALIASES` in source order. -/
def SKILL_ALIASES : List (String × String) :=
  [ ("nodejs", "node.js"), ("node js", "node.js"),
    ("reactjs", "react"), ("react js", "react"),
    ("vuejs", "vue"), ("vue js", "vue"),
    ("nextjs", "next.js"), ("next js", "next.js"),
    ("nuxtjs", "nuxt.js"), ("nuxt js", "nuxt.js"),
    ("svelte kit", "sveltekit"), ("svelte-kit", "sveltekit"),
    ("c++", "c++"), ("cplusplus", "c++"), ("c plus plus", "c++"),
    ("c#", "c#"), ("c sharp", "c#"),
    ("dotnet", ".net"), ("dot net", ".net"), (".net", ".net"),
    ("asp net", "asp.net"),
    ("ci cd", "ci/cd"), ("ci-cd", "ci/cd"), ("ci / cd", "ci/cd"),
    ("restful", "rest"), ("rest api", "rest"), ("restful api", "rest"),
    ("postgres", "postgresql"), ("postgre", "postgresql"),
    ("mongo", "mongodb"),
    ("k8s", "kubernetes"),
    ("ml", "machine learning"), ("dl", "deep learning"),
    ("ai", "artificial intelligence"),
    ("ui ux", "ui/ux"), ("ux ui", "ui/ux"),
    ("js", "javascript"), ("ts", "typescript"), ("py", "python") ]

/-- The display-name table `SkillExtractor.DISPLAY_NAMES`. -/
def DISPLAY_NAMES : List (String × String) :=
  [ ("javascript", "JavaScript"), ("typescript", "TypeScript"),
    ("node.js", "Node.js"), ("next.js", "Next.js"), ("nuxt.js", "Nuxt.js"),
    ("asp.net", "ASP.NET"), ("c++", "C++"), ("c#", "C#"), (".net", ".NET"),
    ("ci/cd", "CI/CD"), ("api", "API"), ("rest", "REST"),
    ("graphql", "GraphQL"), ("ui", "UI"), ("ux", "UX"), ("ui/ux", "UI/UX"),
    ("html", "HTML"), ("css", "CSS"), ("sql", "SQL"), ("nlp", "NLP"),
    ("aws", "AWS"), ("gcp", "GCP"), ("qa", "QA"), ("etl", "ETL"),
    ("ios", "iOS"), ("devops", "DevOps"), ("postgresql", "PostgreSQL"),
    ("mongodb", "MongoDB"), ("mysql", "MySQL"), ("xgboost", "XGBoost"),
    ("lightgbm", "LightGBM"), ("scikit-learn", "scikit-learn"),
    ("github", "GitHub"), ("gitlab", "GitLab"), ("bitbucket", "Bitbucket") ]

/-- The acronym set `SkillExtractor.ACRONYMS`. -/
def ACRONYMS : List String :=
  ["api", "rest", "sql", "nlp", "ui", "ux", "qa", "aws", "gcp", "tdd", "bdd"]

/-- Model of `SkillExtractor.normalize_skill_key`: empty input yields the
empty key; otherwise clean the string and look it up in the alias table
(`SKILL_ALIASES.get(key, key)`). -/
def normalize_skill_key (s : String) : String :=
  if s = "" then ""
  else
    let key := String.mk (cleanChars s.data)
    ((SKILL_ALIASES.lookup key).getD key)

/-- Model of `str.capitalize()`: first character upper-cased (ASCII), the
rest lower-cased. -/
def capitalize (s : String) : String :=
  match s.data with
  | [] => ""
  | c :: t => String.mk (c.toUpper :: t.map Char.toLower)

/-- Model of `SkillExtractor.normalize_skill_name`: normalize, then use the
display table, else capitalize each word, upper-casing known acronyms. -/
def normalize_skill_name (s : String) : String :=
  let key := normalize_skill_key s
  if key = "" then ""
  else
    match DISPLAY_NAMES.lookup key with
    | some d => d
    | none =>
      let parts := (key.data.splitOn ' ').map String.mk
      let formatted := parts.map (fun part =>
        if part ∈ ACRONYMS then String.mk (part.data.map Char.toUpper) else capitalize part)
      String.intercalate " " formatted

/-! ## Matching engine: skill profiles, tokenization and per-skill matching -/

/-- One record of the employee's `skill_set` (`core.models.Skill`): only the
fields read by the matching engine. -/
structure SkillRecord where
  name : String
  confidence_score : ℚ
  source : String
deriving DecidableEq

/-- The slice of `core.models.Employee` read by the matching engine:
`skill_set` and the count of active task assignments that backs the
`current_workload` property. -/
structure Employee where
  id : String
  empName : String
  title : String
  skill_set : List SkillRecord
  active_assignments : ℕ
deriving DecidableEq

/-- Model of the `Employee.current_workload` property: active assignments
over a fixed capacity of 5, as a percentage capped at 100. -/
def current_workload (e : Employee) : ℚ :=
  min 100 ((e.active_assignments : ℚ) / 5 * 100)

/-- The slice of `core.models.Task` read by the matching engine. -/
structure Task where
  priority : String
  required_skills : List String
deriving DecidableEq

/-- One weight row of `MatchingEngine.weights_by_priority`. -/
structure Weights where
  skill : ℚ
  coverage : ℚ
  experience : ℚ
  workload : ℚ
deriving DecidableEq

/-- The `HIGH` row of `weights_by_priority`. -/
def weightsHIGH : Weights := ⟨60/100, 15/100, 15/100, 10/100⟩

/-- The `MEDIUM` row of `weights_by_priority`. -/
def weightsMEDIUM : Weights := ⟨55/100, 15/100, 10/100, 20/100⟩

/-- The `LOW` row of `weights_by_priority`. -/
def weightsLOW : Weights := ⟨45/100, 15/100, 10/100, 30/100⟩

/-- Model of `str.upper()` (ASCII). -/
def upperString (s : String) : String := String.mk (s.data.map Char.toUpper)

/-- Model of `MatchingEngine._get_weights`: falsy priority defaults to
`MEDIUM`, otherwise look up the upper-cased priority with default
`MEDIUM`. -/
def get_weights (priority : String) : Weights :=
  if priority = "" then weightsMEDIUM
  else
    (([("HIGH", weightsHIGH), ("MEDIUM", weightsMEDIUM), ("LOW", weightsLOW)].lookup
      (upperString priority))).getD weightsMEDIUM

/-- Keep-first de-duplication, the order produced by
`list(dict.fromkeys(xs))`. -/
def dedupFirst (l : List String) : List String :=
  l.foldl (fun acc x => if x ∈ acc then acc else acc ++ [x]) []

/-- Model of `MatchingEngine._normalize_required_skills`: normalize each,
drop empty keys, and de-duplicate keeping first occurrences
(`list(dict.fromkeys(...))`). -/
def normalize_required_skills (required : List String) : List String :=
  dedupFirst ((required.map normalize_skill_key).filter (fun k => k ≠ ""))

/-- Model of `MatchingEngine._build_skill_profile`: an association list in
dict insertion order from normalized skill key to confidence, clamped to
`[0,1]`, floored at 0.9 for `MANUAL` records, merged with `max`. -/
def build_skill_profile (e : Employee) : List (String × ℚ) :=
  e.skill_set.foldl
    (fun profile skill =>
      let key := normalize_skill_key skill.name
      if key = "" then profile
      else
        let confidence0 := clamp 0 1 skill.confidence_score
        let confidence := if skill.source = "MANUAL" then max confidence0 (9/10) else confidence0
        if profile.any (fun p => p.1 == key) then
          profile.map (fun p => if p.1 == key then (p.1, max p.2 confidence) else p)
        else profile ++ [(key, confidence)])
    []

/-- Character class `[a-z0-9]` of `_tokenize_skill`'s split regex. -/
def isLowerAlnum (c : Char) : Bool := ('a' ≤ c && c ≤ 'z') || ('0' ≤ c && c ≤ '9')

/-- Maximal runs of `[a-z0-9]` characters, as produced by
`re.split(r"[^a-z0-9]+", s)` (empty border pieces are dropped later by the
length filter, so they are not materialized here). -/
def splitNonAlnum : List Char → List (List Char)
  | [] => []
  | c :: t =>
    if isLowerAlnum c then
      match splitNonAlnum t with
      | [] => [[c]]
      | r :: rs => if t.head?.any isLowerAlnum then (c :: r) :: rs else [c] :: r :: rs
    else splitNonAlnum t

/-- Model of `MatchingEngine._tokenize_skill`: lower-case, split on runs of
characters outside `[a-z0-9]`, keep tokens of length at least 2. -/
def tokenize_skill (s : String) : List (List Char) :=
  (splitNonAlnum (s.data.map Char.toLower)).filter (fun t => 2 ≤ t.length)

/-- Token set of a skill string, as Python's `set(self._tokenize_skill(x))`. -/
def tokenSet (s : String) : Finset (List Char) := (tokenize_skill s).toFinset

/-- Jaccard overlap of the token sets of two skill strings
(`len(a & b) / len(a | b)`; division by zero yields 0, which only arises
when both token sets are empty). -/
def jaccard (a b : Finset (List Char)) : ℚ :=
  ((a ∩ b).card : ℚ) / ((a ∪ b).card : ℚ)

/-- Model of `MatchingEngine._confidence_to_score`:
`base + (1-base) * clamp(confidence)`. -/
def confidence_to_score (confidence base : ℚ) : ℚ :=
  base + (1 - base) * clamp 0 1 confidence

/-- Model of `MatchingEngine._match_skill`: exact key hit scores
`confidence_to_score(conf, 0.45)`; otherwise the best fuzzy score over the
profile, where a profile key with token overlap at least 0.34 scores
`(0.5 + 0.5*overlap) * confidence_to_score(conf, 0.3)`. -/
def match_skill (required_skill : String) (skill_profile : List (String × ℚ)) : ℚ :=
  match skill_profile.lookup required_skill with
  | some conf => confidence_to_score conf (45/100)
  | none =>
    let required_tokens := tokenSet required_skill
    if required_tokens = ∅ then 0
    else
      skill_profile.foldl
        (fun best_score p =>
          let employee_tokens := tokenSet p.1
          if employee_tokens = ∅ then best_score
          else
            let overlap := jaccard required_tokens employee_tokens
            if overlap < 34/100 then best_score
            else
              let score := (1/2 + 1/2 * overlap) * confidence_to_score p.2 (3/10)
              if best_score < score then score else best_score)
        0

/-- Model of `MatchingEngine._best_confidence_for_skill`: exact key hit
returns the stored confidence; otherwise the best `confidence * overlap`
over profile keys with token overlap at least 0.5. -/
def best_confidence_for_skill (required_skill : String) (skill_profile : List (String × ℚ)) : ℚ :=
  match skill_profile.lookup required_skill with
  | some conf => conf
  | none =>
    let required_tokens := tokenSet required_skill
    if required_tokens = ∅ then 0
    else
      skill_profile.foldl
        (fun best_confidence p =>
          let employee_tokens := tokenSet p.1
          if employee_tokens = ∅ then best_confidence
          else
            let overlap := jaccard required_tokens employee_tokens
            if 1/2 ≤ overlap then max best_confidence (p.2 * overlap) else best_confidence)
        0

/-- Model of `MatchingEngine._calculate_skill_match_score`. -/
def calculate_skill_match_score (skill_profile : List (String × ℚ)) (required_skills : List String) : ℚ :=
  if required_skills = [] then 1
  else ((required_skills.map (fun s => match_skill s skill_profile)).sum) / required_skills.length

/-- Model of `MatchingEngine._calculate_coverage_score`. -/
def calculate_coverage_score (skill_profile : List (String × ℚ)) (required_skills : List String) : ℚ :=
  if required_skills = [] then 1
  else
    ((required_skills.filter (fun s => 1/2 ≤ match_skill s skill_profile)).length : ℚ) /
      required_skills.length

/-- Model of `MatchingEngine._calculate_experience_score`. -/
def calculate_experience_score (skill_profile : List (String × ℚ)) (required_skills : List String) : ℚ :=
  if required_skills = [] then 1/2
  else
    let confidences :=
      (required_skills.map (fun s => best_confidence_for_skill s skill_profile)).filter
        (fun c => 0 < c)
    if confidences = [] then 3/10
    else confidences.sum / confidences.length

/-- Model of `MatchingEngine._calculate_workload_score` as a function of the
`current_workload` percentage it reads from the employee. -/
def calculate_workload_score (current_workload : ℚ) : ℚ :=
  let availability := 1 - current_workload / 100
  let availability1 :=
    if 90 ≤ current_workload then availability * (7/10)
    else if 80 ≤ current_workload then availability * (85/100)
    else availability
  clamp 0 1 availability1

/-- Model of `MatchingEngine._calculate_total_score`, parametrized by the
employee's `current_workload` (the only employee field it reads). -/
def calculate_total_score (cw : ℚ) (normalized_required : List String)
    (skill_profile : List (String × ℚ)) (w : Weights) : ℚ :=
  if normalized_required = [] then calculate_workload_score cw
  else
    let skill_score := calculate_skill_match_score skill_profile normalized_required
    let coverage_score := calculate_coverage_score skill_profile normalized_required
    let experience_score := calculate_experience_score skill_profile normalized_required
    let workload_score := calculate_workload_score cw
    clamp 0 1
      (skill_score * w.skill + coverage_score * w.coverage +
        experience_score * w.experience + workload_score * w.workload)

/-- Model of `MatchingEngine.calculate_suitability_score`:
`round(total * 100, 2)`. -/
def calculate_suitability_score (e : Employee) (t : Task) (required_skills : List String) : ℚ :=
  round2
    (calculate_total_score (current_workload e) (normalize_required_skills required_skills)
      (build_skill_profile e) (get_weights t.priority) * 100)

/-! ## Skill extractor: `SkillExtractor.extract_skills` and its passes -/

/-- Model of the regex word character class `\w` (ASCII). -/
def isWordChar (c : Char) : Bool := c.isAlphanum || c == '_'

/-- Literal prefix match: returns the remaining text after the pattern. -/
def matchPre : List Char → List Char → Option (List Char)
  | [], t => some t
  | _ :: _, [] => none
  | p :: ps, c :: t => if p == c then matchPre ps t else none

/-- First alternative of the vocabulary alternation that matches at the
current position and whose following character is not a word character
(the regex `(?!\w)` lookahead; on failure the engine backtracks to the
next alternative).  Returns the matched alternative and the rest. -/
def tryAlts : List (List Char) → List Char → Option (List Char × List Char)
  | [], _ => none
  | a :: rest, t =>
    match matchPre a t with
    | some after =>
      if after.head?.any isWordChar then tryAlts rest t else some (a, after)
    | none => tryAlts rest t

/-- Model of `findall` for the skills pattern
`(?<!\w)(alt1|alt2|...)(?!\w)`: scan left to right; at a position whose
preceding character is not a word character try the alternation; on a match
emit it and continue after it, else advance one character.  The fuel is the
remaining text length, which bounds the recursion. -/
def scanVocab (alts : List (List Char)) : ℕ → List Char → Bool → List (List Char)
  | 0, _, _ => []
  | _ + 1, [], _ => []
  | fuel + 1, c :: t, prevWord =>
    if prevWord then scanVocab alts fuel t (isWordChar c)
    else
      match tryAlts alts (c :: t) with
      | some (a, after) => a :: scanVocab alts fuel after (a.getLast?.elim prevWord isWordChar)
      | none => scanVocab alts fuel t (isWordChar c)

/-- The alternatives of `SkillExtractor._build_skills_pattern`: the union of
the vocabulary and the alias keys, longest first (`sorted(..., key=len,
reverse=True)`; the order among equal-length alternatives is irrelevant
because the emitted match is the matched text itself). -/
def skills_pattern_alternatives : List String :=
  (dedupFirst (TECHNICAL_SKILLS ++ SKILL_ALIASES.map Prod.fst)).insertionSort
    (fun a b => b.length ≤ a.length)

/-- One component of a hand-compiled regex used by the section and compound
passes: a literal, an optional character, `\s+`, or `\s*`. -/
inductive PatComp where
  | lit (s : String)
  | opt (c : Char)
  | ws1
  | ws0
deriving DecidableEq

/-- Case-insensitive literal prefix match (patterns are lower-case). -/
def matchPreCI : List Char → List Char → Option (List Char)
  | [], t => some t
  | _ :: _, [] => none
  | p :: ps, c :: t => if p == c.toLower then matchPreCI ps t else none

/-- Match a component sequence at the head of the text, returning the
matched characters and the rest.  `\s+`/`\s*` take a maximal whitespace run
(all are followed by literals starting with non-whitespace, so maximal
munch is complete); the optional character backtracks. -/
def matchComps : List PatComp → List Char → Option (List Char × List Char)
  | [], t => some ([], t)
  | PatComp.lit s :: cs, t =>
    match matchPreCI s.data t with
    | some rest => (matchComps cs rest).map (fun (r : List Char × List Char) => (t.take s.data.length ++ r.1, r.2))
    | none => none
  | PatComp.opt c :: cs, t =>
    (match t with
     | x :: rest =>
       if x.toLower == c then (matchComps cs rest).map (fun (r : List Char × List Char) => (x :: r.1, r.2)) else none
     | [] => none).orElse
      (fun _ => matchComps cs t)
  | PatComp.ws1 :: cs, t =>
    let run := t.takeWhile Char.isWhitespace
    if run = [] then none
    else (matchComps cs (t.dropWhile Char.isWhitespace)).map (fun (r : List Char × List Char) => (run ++ r.1, r.2))
  | PatComp.ws0 :: cs, t =>
    let run := t.takeWhile Char.isWhitespace
    (matchComps cs (t.dropWhile Char.isWhitespace)).map (fun (r : List Char × List Char) => (run ++ r.1, r.2))

/-- Model of `finditer` for a component pattern: non-overlapping matches,
scanning left to right; returns each match's text and the rest after it. -/
def scanPat (comps : List PatComp) : ℕ → List Char → List (List Char × List Char)
  | 0, _ => []
  | _ + 1, [] => []
  | fuel + 1, c :: t =>
    match matchComps comps (c :: t) with
    | some (m, after) => (m, after) :: scanPat comps fuel after
    | none => scanPat comps fuel t

/-- The six section-header regexes of `_extract_skill_sections`
(`skills?\s*:`, `technical\s+skills?\s*:`, `competencies?\s*:`,
`expertise\s*:`, `technologies?\s*:`, `tools?\s*:`). -/
def header_patterns : List (List PatComp) :=
  [ [.lit "skill", .opt 's', .ws0, .lit ":"],
    [.lit "technical", .ws1, .lit "skill", .opt 's', .ws0, .lit ":"],
    [.lit "competencie", .opt 's', .ws0, .lit ":"],
    [.lit "expertise", .ws0, .lit ":"],
    [.lit "technologie", .opt 's', .ws0, .lit ":"],
    [.lit "tool", .opt 's', .ws0, .lit ":"] ]

/-- The delimiter class `[,;\n•\|]` of the section item split. -/
def isDelimChar (c : Char) : Bool :=
  c == ',' || c == ';' || c == '\n' || c == '•' || c == '|'

/-- Model of `re.split` on the delimiter class: the pieces between
delimiter occurrences (empty pieces included). -/
def splitDelims : List Char → List (List Char)
  | [] => [[]]
  | c :: t =>
    if isDelimChar c then [] :: splitDelims t
    else
      match splitDelims t with
      | [] => [[c]]
      | r :: rs => (c :: r) :: rs

/-- Model of `SkillExtractor._extract_skill_sections`: after each header
match take 500 characters, split on delimiters, keep stripped items of
length 3–49 containing an alphanumeric character; de-duplicate keeping
first occurrences and cap at 25. -/
def extract_skill_sections (text : String) : List String :=
  let pieces := header_patterns.flatMap (fun hp =>
    (scanPat hp text.data.length text.data).flatMap (fun m =>
      let section_text := m.2.take 500
      (splitDelims section_text).filterMap (fun item0 =>
        let item := trimWS item0
        if item ≠ [] ∧ 2 < item.length ∧ item.length < 50 ∧ item.any (fun c => c.isAlphanum)
        then some (String.mk item) else none)))
  (dedupFirst pieces).take 25

/-- The fixed compound-skill regexes of `_extract_compound_skills`. -/
def compound_patterns : List (List PatComp) :=
  [ [.lit "machine", .ws1, .lit "learning"],
    [.lit "deep", .ws1, .lit "learning"],
    [.lit "artificial", .ws1, .lit "intelligence"],
    [.lit "natural", .ws1, .lit "language", .ws1, .lit "processing"],
    [.lit "data", .ws1, .lit "science"],
    [.lit "data", .ws1, .lit "analysis"],
    [.lit "data", .ws1, .lit "engineering"],
    [.lit "project", .ws1, .lit "management"],
    [.lit "stakeholder", .ws1, .lit "management"],
    [.lit "unit", .ws1, .lit "testing"],
    [.lit "integration", .ws1, .lit "testing"],
    [.lit "test", .ws1, .lit "automation"],
    [.lit "react", .ws1, .lit "native"],
    [.lit "node.js"], [.lit "next.js"], [.lit "nuxt.js"],
    [.lit "ci/cd"],
    [.lit "ui", .ws0, .lit "/", .ws0, .lit "ux"] ]

/-- Model of `SkillExtractor._extract_compound_skills`: all matches of the
compound patterns over the lower-cased text, de-duplicated
(`list(set(found))`; the set's iteration order is implementation-defined,
modelled as keep-first order, which is unobservable downstream because
each compound key is inserted at most once). -/
def extract_compound_skills (text : String) : List String :=
  let lower := text.data.map Char.toLower
  dedupFirst (compound_patterns.flatMap (fun cp =>
    (scanPat cp lower.length lower).map (fun m => String.mk m.1)))

/-- The known key set `self.known_skill_keys`: vocabulary plus alias
targets. -/
def known_skill_keys : List String := TECHNICAL_SKILLS ++ SKILL_ALIASES.map Prod.snd

/-- One value of the `found_skills` dict during extraction. -/
structure ExtractedEntry where
  name : String
  confidence_score : ℚ
  count : ℕ
deriving DecidableEq

/-- One element of the list returned by `extract_skills`. -/
structure ExtractedSkill where
  name : String
  confidence_score : ℚ
deriving DecidableEq

/-- Key-presence test on the `found_skills` association list. -/
def hasKey (found : List (String × ExtractedEntry)) (k : String) : Bool :=
  found.any (fun p => p.1 == k)

/-- Update the entry stored under a key. -/
def updateAt (found : List (String × ExtractedEntry)) (k : String)
    (f : ExtractedEntry → ExtractedEntry) : List (String × ExtractedEntry) :=
  found.map (fun p => if p.1 == k then (p.1, f p.2) else p)

/-- Pass 1 (direct pattern matches): each match ensures an entry with
confidence 0.8 and increments its occurrence count. -/
def apply_pass1 (found : List (String × ExtractedEntry)) (vocabMatches : List String) :
    List (String × ExtractedEntry) :=
  vocabMatches.foldl
    (fun f m =>
      let k := normalize_skill_key m
      if k = "" then f
      else
        let f1 := if hasKey f k then f else f ++ [(k, ⟨normalize_skill_name k, 8/10, 0⟩)]
        updateAt f1 k (fun e => ⟨e.name, e.confidence_score, e.count + 1⟩))
    found

/-- Pass 2 (section items): new keys get confidence 0.9 if known else 0.55
with count 1; existing keys get their count incremented and confidence
raised by 0.1 capped at 1. -/
def apply_pass2 (found : List (String × ExtractedEntry)) (sectionSkills : List String) :
    List (String × ExtractedEntry) :=
  sectionSkills.foldl
    (fun f s =>
      let k := normalize_skill_key s
      if k = "" then f
      else
        let base_confidence : ℚ := if k ∈ known_skill_keys then 9/10 else 55/100
        if hasKey f k then
          updateAt f k (fun e => ⟨e.name, min 1 (e.confidence_score + 1/10), e.count + 1⟩)
        else f ++ [(k, ⟨normalize_skill_name k, base_confidence, 1⟩)])
    found

/-- Pass 3 (compound phrases): only keys not already present are added,
with confidence 0.6 and count 1. -/
def apply_pass3 (found : List (String × ExtractedEntry)) (compoundSkills : List String) :
    List (String × ExtractedEntry) :=
  compoundSkills.foldl
    (fun f s =>
      let k := normalize_skill_key s
      if k = "" then f
      else if hasKey f k then f
      else f ++ [(k, ⟨normalize_skill_name k, 6/10, 1⟩)])
    found

/-- The merged `found_skills` state after the three passes. -/
def found_all (text : String) : List (String × ExtractedEntry) :=
  let text_lower := text.data.map Char.toLower
  let vocabMatches :=
    (scanVocab (skills_pattern_alternatives.map String.data) text_lower.length text_lower
      false).map String.mk
  apply_pass3 (apply_pass2 (apply_pass1 [] vocabMatches) (extract_skill_sections text))
    (extract_compound_skills text)

/-- The repetition boost: keys with occurrence count above 1 gain
`min(0.15, 0.05*(count-1))`, capped at 1. -/
def boost_repetitions (found : List (String × ExtractedEntry)) :
    List (String × ExtractedEntry) :=
  found.map (fun p =>
    if 1 < p.2.count then
      (p.1,
        ⟨p.2.name,
          min 1 (p.2.confidence_score + min (15/100) (5/100 * ((p.2.count : ℚ) - 1))),
          p.2.count⟩)
    else p)

/-- Model of `SkillExtractor.extract_skills` on a string: empty (falsy)
text short-circuits to the empty list; otherwise run the three passes,
boost repetitions, filter by `min_confidence` and sort descending by
confidence. -/
def extract_skills (text : String) (min_confidence : ℚ) : List ExtractedSkill :=
  if text = "" then []
  else
    let boosted := boost_repetitions (found_all text)
    let result :=
      (boosted.filter (fun p => min_confidence ≤ p.2.confidence_score)).map
        (fun p => ExtractedSkill.mk p.2.name (min 1 p.2.confidence_score))
    result.insertionSort (fun a b => b.confidence_score ≤ a.confidence_score)

/-- A fragment of Python's value universe, to state how `extract_skills`
behaves on non-string input. -/
inductive PyVal where
  | none
  | str (s : String)
  | int (n : ℤ)
deriving DecidableEq

/-- Python truthiness of the modelled values. -/
def pyFalsy : PyVal → Bool
  | .none => true
  | .str s => s = ""
  | .int n => n = 0

/-- Model of calling `extract_skills` with an arbitrary (possibly
non-string) argument: falsy input returns `[]` via the `if not text`
guard; a truthy non-string then hits `text.lower()` and raises
`AttributeError`. -/
def extract_skills_py (v : PyVal) (min_confidence : ℚ) :
    Except String (List ExtractedSkill) :=
  if pyFalsy v then Except.ok []
  else
    match v with
    | .str s => Except.ok (extract_skills s min_confidence)
    | _ => Except.error "AttributeError"

/-- Model of `MatchingEngine._get_matching_skills`. -/
def get_matching_skills (required_skills : List String) (skill_profile : List (String × ℚ)) :
    List String :=
  (required_skills.filter (fun s => 1/2 ≤ match_skill s skill_profile)).map normalize_skill_name

/-- One entry of the list returned by `find_best_matches`. -/
structure MatchResult where
  employee_id : String
  employee_name : String
  employee_title : String
  suitability_score : ℚ
  matching_skills : List String
  mr_current_workload : ℚ
deriving DecidableEq

/-- Descending order on suitability scores, the sort key of
`matches.sort(key=..., reverse=True)`. -/
def byScoreDesc (a b : MatchResult) : Prop := b.suitability_score ≤ a.suitability_score

instance : DecidableRel byScoreDesc := fun a b =>
  inferInstanceAs (Decidable (b.suitability_score ≤ a.suitability_score))

instance : IsTotal MatchResult byScoreDesc :=
  ⟨fun a b => le_total b.suitability_score a.suitability_score⟩

instance : IsTrans MatchResult byScoreDesc :=
  ⟨fun _ _ _ h h' => le_trans h' h⟩

/-- The pre-sort match list of `MatchingEngine.find_best_matches`: one entry
per candidate employee whose rounded score reaches `min_score`, in the
original candidate order. -/
def match_candidates (t : Task) (employees : List Employee) (min_score : ℚ) : List MatchResult :=
  let normalized_required := normalize_required_skills t.required_skills
  let weights := get_weights t.priority
  employees.filterMap (fun e =>
    let skill_profile := build_skill_profile e
    let score :=
      round2 (calculate_total_score (current_workload e) normalized_required skill_profile
        weights * 100)
    if min_score ≤ score then
      some
        { employee_id := e.id
          employee_name := e.empName
          employee_title := if e.title = "" then "Employee" else e.title
          suitability_score := score
          matching_skills := get_matching_skills normalized_required skill_profile
          mr_current_workload := current_workload e }
    else none)

/-- Model of `MatchingEngine.find_best_matches`, parametrized by the list of
candidate employees the original fetches from the database: filter by
`min_score`, stable-sort descending by score, truncate to `limit`. -/
def find_best_matches (t : Task) (employees : List Employee) (limit : ℕ) (min_score : ℚ) :
    List MatchResult :=
  ((match_candidates t employees min_score).insertionSort byScoreDesc).take limit

/-! ## Claim-side definitions, written from the specification's words, to be
compared with the definitions translated from the source. -/

/-- The per-skill match value as the specification words it (C1): exact key
hit scores `0.45 + 0.55*confidence`; otherwise the maximum over profile
keys whose token-set Jaccard overlap is at least 0.34 of
`(0.5 + 0.5*overlap) * (0.3 + 0.7*confidence)`, and 0 when no profile key
reaches the threshold. -/
def claim_match_value (required_skill : String) (skill_profile : List (String × ℚ)) : ℚ :=
  match skill_profile.lookup required_skill with
  | some conf => 45/100 + 55/100 * conf
  | none =>
    ((skill_profile.filter
        (fun p => decide (34/100 ≤ jaccard (tokenSet required_skill) (tokenSet p.1)))).map
      (fun p => (1/2 + 1/2 * jaccard (tokenSet required_skill) (tokenSet p.1)) *
        (3/10 + 7/10 * p.2))).foldr max 0

/-- The best matching confidence for one required skill as the claim C7
words it: the confidence of the best-matching profile entry (an exact key
hit contributes its stored confidence, and otherwise the qualifying
entries are those with token overlap at least 0.5, contributing their
stored confidence). -/
def claimed_best_entry_confidence (s : String) (p : List (String × ℚ)) : ℚ :=
  match p.lookup s with
  | some conf => conf
  | none =>
    ((p.filter (fun q => decide (1/2 ≤ jaccard (tokenSet s) (tokenSet q.1)))).map
      Prod.snd).foldr max 0

/-- Whether a required skill has any match in the profile under the
exact-match-or-token-overlap ≥ 0.5 rule (claim C7). -/
def has_any_match (s : String) (p : List (String × ℚ)) : Prop :=
  p.lookup s ≠ none ∨ ∃ q ∈ p, 1/2 ≤ jaccard (tokenSet s) (tokenSet q.1)

instance (s : String) (p : List (String × ℚ)) : Decidable (has_any_match s p) := by
  unfold has_any_match
  infer_instance

/-- The experience score exactly as claim C7 states it: the average, over
required skills that have any match, of the confidence of the
best-matching profile entry; 0.3 when required skills exist but none
matched, 0.5 when none are required. -/
def claimed_experience_score (p : List (String × ℚ)) (required : List String) : ℚ :=
  if required = [] then 1/2
  else
    let matched := required.filter (fun s => decide (has_any_match s p))
    if matched = [] then 3/10
    else (matched.map (fun s => claimed_best_entry_confidence s p)).sum / matched.length

/-- The best matching value for one required skill as the amended claim C7
states it: an exact key hit contributes its stored confidence, otherwise
the maximum of `confidence * overlap` over profile entries with token
overlap at least 0.5 (0 if none qualifies). -/
def amended_best_confidence (s : String) (p : List (String × ℚ)) : ℚ :=
  match p.lookup s with
  | some conf => conf
  | none =>
    ((p.filter (fun q => decide (1/2 ≤ jaccard (tokenSet s) (tokenSet q.1)))).map
      (fun q => q.2 * jaccard (tokenSet s) (tokenSet q.1))).foldr max 0

/-- The experience score as the amended claim C7 states it: the average,
over required skills whose best match value is positive, of that value;
0.3 when required skills exist but no value is positive, 0.5 when no
skills are required. -/
def amended_experience_score (p : List (String × ℚ)) (required : List String) : ℚ :=
  if required = [] then 1/2
  else
    let vals :=
      (required.map (fun s => amended_best_confidence s p)).filter (fun c => decide (0 < c))
    if vals = [] then 3/10 else vals.sum / vals.length

/-- The workload availability score as claim C6 and C10 word it:
`1 - cw/100` times a penalty of 0.7 for `cw ≥ 90`, 0.85 for
`80 ≤ cw < 90` and 1 otherwise, clamped to `[0, 1]`. -/
def claim_workload_score (cw : ℚ) : ℚ :=
  clamp 0 1
    ((1 - cw / 100) * (if 90 ≤ cw then 7/10 else if 80 ≤ cw then 85/100 else 1))

/-! ## General lemmas about the embedded operations -/

theorem clamp01_nonneg (x : ℚ) : 0 ≤ clamp 0 1 x := le_max_left 0 _

theorem clamp01_le_one (x : ℚ) : clamp 0 1 x ≤ 1 :=
  max_le (by norm_num) (min_le_left 1 x)

theorem clamp01_eq_self {x : ℚ} (h0 : 0 ≤ x) (h1 : x ≤ 1) : clamp 0 1 x = x := by
  unfold clamp
  rw [min_eq_right h1, max_eq_right h0]

theorem clamp01_mono {x y : ℚ} (h : x ≤ y) : clamp 0 1 x ≤ clamp 0 1 y :=
  max_le_max le_rfl (min_le_min le_rfl h)

theorem jaccard_nonneg (a b : Finset (List Char)) : 0 ≤ jaccard a b :=
  div_nonneg (by positivity) (by positivity)

theorem jaccard_le_one (a b : Finset (List Char)) : jaccard a b ≤ 1 := by
  unfold jaccard
  rcases Nat.eq_zero_or_pos (a ∪ b).card with h | h
  · simp [h, Finset.card_eq_zero.mp h]
  · rw [div_le_one (by exact_mod_cast h)]
    exact_mod_cast Finset.card_le_card Finset.inter_subset_union

theorem jaccard_of_left_empty (b : Finset (List Char)) : jaccard ∅ b = 0 := by
  simp [jaccard]

theorem confidence_to_score_nonneg (c base : ℚ) (hb : 0 ≤ base) (hb1 : base ≤ 1) :
    0 ≤ confidence_to_score c base := by
  unfold confidence_to_score
  nlinarith [clamp01_nonneg c]

theorem confidence_to_score_le_one (c base : ℚ) (hb1 : base ≤ 1) :
    confidence_to_score c base ≤ 1 := by
  unfold confidence_to_score
  nlinarith [clamp01_le_one c, clamp01_nonneg c]

theorem confidence_to_score_eq {c : ℚ} (base : ℚ) (h0 : 0 ≤ c) (h1 : c ≤ 1) :
    confidence_to_score c base = base + (1 - base) * c := by
  unfold confidence_to_score
  rw [clamp01_eq_self h0 h1]

/-- Folding `max` with a modified initial value commutes out. -/
theorem foldr_max_init (L : List ℚ) (i x : ℚ) :
    L.foldr max (max i x) = max x (L.foldr max i) := by
  induction L with
  | nil => exact max_comm i x
  | cons y L ih => simpa [ih] using max_left_comm y x (L.foldr max i)

/-- The guarded running-maximum fold used by `_match_skill` and
`_best_confidence_for_skill` equals the maximum of the selected values. -/
theorem foldl_max_filtered {α : Type} (l : List α) (q : α → Prop) [DecidablePred q]
    (f : α → ℚ) (i : ℚ) :
    l.foldl (fun b a => if q a then max b (f a) else b) i =
      ((l.filter (fun a => decide (q a))).map f).foldr max i := by
  induction l generalizing i with
  | nil => rfl
  | cons a l ih =>
    by_cases hq : q a
    · simp only [List.foldl_cons, if_pos hq, List.filter_cons, decide_eq_true hq, List.map_cons,
        List.foldr_cons, ih]
      exact foldr_max_init _ i (f a)
    · simp only [List.foldl_cons, if_neg hq, List.filter_cons, decide_eq_false hq, ih,
        Bool.false_eq_true, if_false]

theorem lookup_mem {β : Type} {p : List (String × β)} {k : String} {c : β}
    (h : p.lookup k = some c) : (k, c) ∈ p := by
  obtain ⟨l₁, l₂, rfl, -⟩ := List.lookup_eq_some_iff.mp h
  simp

/-- The in-branch penalty multiplications of `_calculate_workload_score`
compute the claim's single product formula. -/
theorem calculate_workload_score_eq_claim (cw : ℚ) :
    calculate_workload_score cw = claim_workload_score cw := by
  unfold calculate_workload_score claim_workload_score
  split_ifs <;> ring_nf

/-! ## Claim C10: the workload availability score is non-increasing in the
workload percentage over `[0, 100]`. -/

/-- C10: for workloads `0 ≤ w1 ≤ w2 ≤ 100`, the workload availability score
computed by `_calculate_workload_score` at `w2` is at most the one at
`w1`; the stepwise penalty multipliers at the 80 and 90 thresholds never
produce an inversion. -/
theorem claim10_workload_score_antitone (w1 w2 : ℚ) (h0 : 0 ≤ w1) (h12 : w1 ≤ w2)
    (h100 : w2 ≤ 100) :
    calculate_workload_score w2 ≤ calculate_workload_score w1 := by
  unfold calculate_workload_score
  apply clamp01_mono
  split_ifs <;> nlinarith

/-- Witness for C10 at the concrete workloads 40 and 85. -/
theorem claim10_workload_score_antitone_witness :
    (0:ℚ) ≤ 40 ∧ (40:ℚ) ≤ 85 ∧ (85:ℚ) ≤ 100 ∧
      calculate_workload_score 85 ≤ calculate_workload_score 40 :=
  ⟨by norm_num, by norm_num, by norm_num,
    claim10_workload_score_antitone 40 85 (by norm_num) (by norm_num) (by norm_num)⟩

/-! ## Claim C1: the per-skill match value of `_match_skill` -/

/-- C1: for every required skill and every skill profile whose confidences
lie in `[0,1]`, the per-skill match value computed by `_match_skill`
equals `0.45 + 0.55*confidence` when the key is present, and otherwise the
maximum over profile keys with token-set Jaccard overlap at least 0.34 of
`(0.5 + 0.5*overlap) * (0.3 + 0.7*confidence)`, 0 when no profile key
reaches the threshold. -/
theorem claim1_match_skill_eq_claim (r : String) (p : List (String × ℚ))
    (h : ∀ q ∈ p, 0 ≤ q.2 ∧ q.2 ≤ 1) :
    match_skill r p = claim_match_value r p := by
  unfold match_skill claim_match_value
  cases hlk : p.lookup r with
  | some conf =>
    obtain ⟨h0, h1⟩ := h _ (lookup_mem hlk)
    simp only at h0 h1
    dsimp only
    rw [confidence_to_score_eq _ h0 h1]
    ring
  | none =>
    dsimp only
    by_cases hrt : tokenSet r = ∅
    · rw [if_pos hrt]
      have hfilter :
          p.filter (fun q => decide (34/100 ≤ jaccard (tokenSet r) (tokenSet q.1))) = [] := by
        apply List.filter_eq_nil_iff.mpr
        intro q _
        simp only [decide_eq_true_eq, hrt, jaccard_of_left_empty]
        norm_num
      rw [hfilter]
      rfl
    · rw [if_neg hrt]
      have hstep :
          (fun (best_score : ℚ) (q : String × ℚ) =>
              if tokenSet q.1 = ∅ then best_score
              else if jaccard (tokenSet r) (tokenSet q.1) < 34/100 then best_score
              else if best_score <
                  (1/2 + 1/2 * jaccard (tokenSet r) (tokenSet q.1)) *
                    confidence_to_score q.2 (3/10) then
                  (1/2 + 1/2 * jaccard (tokenSet r) (tokenSet q.1)) *
                    confidence_to_score q.2 (3/10)
                else best_score) =
            fun (b : ℚ) (q : String × ℚ) =>
              if 34/100 ≤ jaccard (tokenSet r) (tokenSet q.1) then
                max b ((1/2 + 1/2 * jaccard (tokenSet r) (tokenSet q.1)) *
                  confidence_to_score q.2 (3/10))
              else b := by
        funext b q
        by_cases het : tokenSet q.1 = ∅
        · have : jaccard (tokenSet r) (tokenSet q.1) = 0 := by
            unfold jaccard
            simp [het]
          rw [if_pos het, this]
          norm_num
        · rw [if_neg het]
          rcases lt_or_le (jaccard (tokenSet r) (tokenSet q.1)) (34/100) with hlt | hge
          · rw [if_pos hlt, if_neg (not_le.mpr hlt)]
          · rw [if_neg (not_lt.mpr hge), if_pos hge]
            rcases lt_or_le b ((1/2 + 1/2 * jaccard (tokenSet r) (tokenSet q.1)) *
                confidence_to_score q.2 (3/10)) with hb | hb
            · rw [if_pos hb, max_eq_right hb.le]
            · rw [if_neg (not_lt.mpr hb), max_eq_left hb]
      rw [hstep, foldl_max_filtered p
        (fun q => 34/100 ≤ jaccard (tokenSet r) (tokenSet q.1))]
      refine congrArg (List.foldr max 0) (List.map_congr_left ?_)
      intro q hq
      obtain ⟨h0, h1⟩ := h q (List.mem_of_mem_filter hq)
      rw [confidence_to_score_eq _ h0 h1]
      ring

/-- Witness for C1: a profile with one exact hit and one fuzzy entry. -/
theorem claim1_witness :
    (∀ q ∈ [("python", (1:ℚ)/2), ("machine learning", 3/4)], 0 ≤ q.2 ∧ q.2 ≤ 1) ∧
      match_skill "python" [("python", (1:ℚ)/2), ("machine learning", 3/4)] =
        claim_match_value "python" [("python", (1:ℚ)/2), ("machine learning", 3/4)] ∧
      match_skill "machine" [("python", (1:ℚ)/2), ("machine learning", 3/4)] =
        claim_match_value "machine" [("python", (1:ℚ)/2), ("machine learning", 3/4)] :=
  ⟨by intro q hq; fin_cases hq <;> constructor <;> norm_num,
    claim1_match_skill_eq_claim "python" _
      (by intro q hq; fin_cases hq <;> constructor <;> norm_num),
    claim1_match_skill_eq_claim "machine" _
      (by intro q hq; fin_cases hq <;> constructor <;> norm_num)⟩

/-! ## Claim C9: alias resolution takes precedence over fuzzy matching -/

/-- C9: `"reactjs"` is alias-normalized to `"react"`, so scoring the
normalized required skill against a profile containing the key `"react"`
takes the exact-match branch `0.45 + 0.55*confidence`; without the
normalization the token-overlap branch would find no match at all (the
token sets `{reactjs}` and `{react}` are disjoint). -/
theorem claim9_alias_precedes_fuzzy :
    normalize_skill_key "reactjs" = "react" ∧
      (∀ (p : List (String × ℚ)) (c : ℚ), p.lookup "react" = some c → 0 ≤ c → c ≤ 1 →
        match_skill (normalize_skill_key "reactjs") p = 45/100 + 55/100 * c) ∧
      (∀ c : ℚ, match_skill "reactjs" [("react", c)] = 0) := by
  have halias : normalize_skill_key "reactjs" = "react" := by with_unfolding_all decide
  refine ⟨halias, ?_, ?_⟩
  · intro p c hlk h0 h1
    rw [halias]
    unfold match_skill
    rw [hlk]
    dsimp only
    rw [confidence_to_score_eq _ h0 h1]
    ring
  · intro c
    unfold match_skill
    have hlk : List.lookup "reactjs" [("react", c)] = none := by
      simp [List.lookup]
    rw [hlk]
    dsimp only
    have hrt : ¬ tokenSet "reactjs" = ∅ := by with_unfolding_all decide
    rw [if_neg hrt]
    dsimp only [List.foldl]
    have het : ¬ tokenSet "react" = ∅ := by with_unfolding_all decide
    rw [if_neg het]
    have hov : jaccard (tokenSet "reactjs") (tokenSet "react") = 0 := by
      with_unfolding_all decide
    rw [hov]
    norm_num

/-- Witness for C9 at the profile `{react: 1/2}`. -/
theorem claim9_witness :
    match_skill (normalize_skill_key "reactjs") [("react", (1:ℚ)/2)] =
      45/100 + 55/100 * (1/2) :=
  claim9_alias_precedes_fuzzy.2.1 [("react", (1:ℚ)/2)] (1/2)
    (by with_unfolding_all decide) (by norm_num) (by norm_num)

/-! ## Claim C7: the experience score -/

/-- C7 counterexample: for the profile `{machine: 1}` and the required
skill `"machine learning"` (token overlap exactly 0.5), the code averages
`confidence * overlap = 0.5`, while the claim's "confidence of the
best-matching profile entry" is 1; the two disagree. -/
theorem claim7_counterexample :
    calculate_experience_score [("machine", (1:ℚ))] ["machine learning"] = 1/2 ∧
      claimed_experience_score [("machine", (1:ℚ))] ["machine learning"] = 1 ∧
      calculate_experience_score [("machine", (1:ℚ))] ["machine learning"] ≠
        claimed_experience_score [("machine", (1:ℚ))] ["machine learning"] := by
  refine ⟨?_, ?_, ?_⟩ <;> with_unfolding_all decide

/-- The guarded fold of `_best_confidence_for_skill` equals the amended
claim's filtered maximum. -/
theorem best_confidence_eq_amended (s : String) (p : List (String × ℚ)) :
    best_confidence_for_skill s p = amended_best_confidence s p := by
  unfold best_confidence_for_skill amended_best_confidence
  cases hlk : p.lookup s with
  | some conf => rfl
  | none =>
    dsimp only
    by_cases hrt : tokenSet s = ∅
    · rw [if_pos hrt]
      have hfilter :
          p.filter (fun q => decide (1/2 ≤ jaccard (tokenSet s) (tokenSet q.1))) = [] := by
        apply List.filter_eq_nil_iff.mpr
        intro q _
        simp only [decide_eq_true_eq, hrt, jaccard_of_left_empty]
        norm_num
      rw [hfilter]
      rfl
    · rw [if_neg hrt]
      have hstep :
          (fun (best : ℚ) (q : String × ℚ) =>
              if tokenSet q.1 = ∅ then best
              else if 1/2 ≤ jaccard (tokenSet s) (tokenSet q.1) then
                max best (q.2 * jaccard (tokenSet s) (tokenSet q.1))
              else best) =
            fun (b : ℚ) (q : String × ℚ) =>
              if 1/2 ≤ jaccard (tokenSet s) (tokenSet q.1) then
                max b (q.2 * jaccard (tokenSet s) (tokenSet q.1))
              else b := by
        funext b q
        by_cases het : tokenSet q.1 = ∅
        · have hj : jaccard (tokenSet s) (tokenSet q.1) = 0 := by
            unfold jaccard
            simp [het]
          rw [if_pos het, hj]
          norm_num
        · rw [if_neg het]
      rw [hstep]
      exact foldl_max_filtered p (fun q => 1/2 ≤ jaccard (tokenSet s) (tokenSet q.1)) _ 0

/-- C7 amended: the experience score equals the average, over required
skills whose best match value (`confidence * overlap`, with exact key hits
contributing their stored confidence) is positive, of that value; 0.3 when
required skills exist but no value is positive; 0.5 when no skills are
required. -/
theorem claim7_experience_score_amended (p : List (String × ℚ)) (required : List String) :
    calculate_experience_score p required = amended_experience_score p required := by
  unfold calculate_experience_score amended_experience_score
  by_cases hreq : required = []
  · rw [if_pos hreq, if_pos hreq]
  · rw [if_neg hreq, if_neg hreq]
    have hmap :
        required.map (fun s => best_confidence_for_skill s p) =
          required.map (fun s => amended_best_confidence s p) :=
      List.map_congr_left (fun s _ => best_confidence_eq_amended s p)
    rw [hmap]

/-! ## Bounds of the sub-scores and properties of two-decimal rounding -/

theorem foldl_step_bounds {α : Type} (l : List α) (f : ℚ → α → ℚ)
    (hf : ∀ b a, a ∈ l → 0 ≤ b → b ≤ 1 → 0 ≤ f b a ∧ f b a ≤ 1)
    (i : ℚ) (h0 : 0 ≤ i) (h1 : i ≤ 1) :
    0 ≤ l.foldl f i ∧ l.foldl f i ≤ 1 := by
  induction l generalizing i with
  | nil => exact ⟨h0, h1⟩
  | cons a l ih =>
    have hstep := hf i a (List.mem_cons_self a l) h0 h1
    exact ih (fun b x hx hb0 hb1 => hf b x (List.mem_cons_of_mem a hx) hb0 hb1) _
      hstep.1 hstep.2

theorem match_skill_bounds (r : String) (p : List (String × ℚ)) :
    0 ≤ match_skill r p ∧ match_skill r p ≤ 1 := by
  unfold match_skill
  cases p.lookup r with
  | some conf =>
    exact ⟨confidence_to_score_nonneg _ _ (by norm_num) (by norm_num),
      confidence_to_score_le_one _ _ (by norm_num)⟩
  | none =>
    dsimp only
    split_ifs
    · norm_num
    · apply foldl_step_bounds
      · intro b a _ hb0 hb1
        split_ifs with h1 h2 h3
        · exact ⟨hb0, hb1⟩
        · exact ⟨hb0, hb1⟩
        · have hov0 := jaccard_nonneg (tokenSet r) (tokenSet a.1)
          have hov1 := jaccard_le_one (tokenSet r) (tokenSet a.1)
          have hc0 := confidence_to_score_nonneg a.2 (3/10) (by norm_num) (by norm_num)
          have hc1 := confidence_to_score_le_one a.2 (3/10) (by norm_num)
          constructor <;> nlinarith
        · exact ⟨hb0, hb1⟩
      · norm_num
      · norm_num

theorem best_confidence_bounds (r : String) (p : List (String × ℚ))
    (h : ∀ q ∈ p, 0 ≤ q.2 ∧ q.2 ≤ 1) :
    0 ≤ best_confidence_for_skill r p ∧ best_confidence_for_skill r p ≤ 1 := by
  unfold best_confidence_for_skill
  cases hlk : p.lookup r with
  | some conf => exact h _ (lookup_mem hlk)
  | none =>
    dsimp only
    split_ifs
    · norm_num
    · apply foldl_step_bounds
      · intro b a ha hb0 hb1
        obtain ⟨ha0, ha1⟩ := h a ha
        split_ifs with h1 h2
        · exact ⟨hb0, hb1⟩
        · have hov0 := jaccard_nonneg (tokenSet r) (tokenSet a.1)
          have hov1 := jaccard_le_one (tokenSet r) (tokenSet a.1)
          constructor
          · exact le_max_of_le_left hb0
          · apply max_le hb1
            nlinarith
        · exact ⟨hb0, hb1⟩
      · norm_num
      · norm_num

theorem list_avg_bounds (l : List ℚ) (hl : l ≠ []) (h : ∀ x ∈ l, 0 ≤ x ∧ x ≤ 1) :
    0 ≤ l.sum / l.length ∧ l.sum / l.length ≤ 1 := by
  have hlen : 0 < (l.length : ℚ) := by
    have := List.length_pos.mpr hl
    exact_mod_cast this
  constructor
  · exact div_nonneg (List.sum_nonneg (fun x hx => (h x hx).1)) hlen.le
  · rw [div_le_one hlen]
    calc l.sum ≤ l.length • (1:ℚ) := List.sum_le_card_nsmul l 1 (fun x hx => (h x hx).2)
    _ = l.length := by simp

theorem skill_match_score_bounds (p : List (String × ℚ)) (required : List String) :
    0 ≤ calculate_skill_match_score p required ∧ calculate_skill_match_score p required ≤ 1 := by
  unfold calculate_skill_match_score
  split_ifs with hreq
  · norm_num
  · have hmap : (required.map (fun s => match_skill s p)) ≠ [] := by
      simpa using hreq
    have hlen : (required.map (fun s => match_skill s p)).length = required.length := by
      simp
    rw [← hlen]
    exact list_avg_bounds _ hmap (by
      intro x hx
      obtain ⟨s, -, rfl⟩ := List.mem_map.mp hx
      exact match_skill_bounds s p)

theorem coverage_score_bounds (p : List (String × ℚ)) (required : List String) :
    0 ≤ calculate_coverage_score p required ∧ calculate_coverage_score p required ≤ 1 := by
  unfold calculate_coverage_score
  split_ifs with hreq
  · norm_num
  · have hlen : 0 < (required.length : ℚ) := by
      have := List.length_pos.mpr hreq
      exact_mod_cast this
    constructor
    · positivity
    · rw [div_le_one hlen]
      exact_mod_cast List.length_filter_le _ required

theorem experience_score_bounds (p : List (String × ℚ)) (required : List String)
    (h : ∀ q ∈ p, 0 ≤ q.2 ∧ q.2 ≤ 1) :
    0 ≤ calculate_experience_score p required ∧ calculate_experience_score p required ≤ 1 := by
  unfold calculate_experience_score
  dsimp only
  by_cases hreq : required = []
  · rw [if_pos hreq]
    norm_num
  · rw [if_neg hreq]
    by_cases hconf :
        (required.map (fun s => best_confidence_for_skill s p)).filter
          (fun c => decide (0 < c)) = []
    · rw [if_pos hconf]
      norm_num
    · rw [if_neg hconf]
      apply list_avg_bounds _ hconf
      intro x hx
      have hx' := List.mem_of_mem_filter hx
      obtain ⟨s, -, rfl⟩ := List.mem_map.mp hx'
      exact best_confidence_bounds s p h

theorem round2_mono {a b : ℚ} (h : a ≤ b) : round2 a ≤ round2 b := by
  unfold round2
  have : round (a * 100) ≤ round (b * 100) := by
    rw [round_eq, round_eq]
    exact Int.floor_le_floor (by linarith)
  have hc : ((round (a * 100) : ℤ) : ℚ) ≤ ((round (b * 100) : ℤ) : ℚ) := by exact_mod_cast this
  linarith

theorem round2_lt {a b : ℚ} (h : a + 1 ≤ b) : round2 a < round2 b := by
  unfold round2
  have h1 : round (a * 100) + 100 ≤ round (b * 100) := by
    have : round (a * 100 + (100 : ℤ)) ≤ round (b * 100) := by
      rw [round_eq, round_eq]
      apply Int.floor_le_floor
      push_cast
      linarith
    rw [round_add_int] at this
    linarith
  have hc : ((round (a * 100) : ℤ) : ℚ) + 100 ≤ ((round (b * 100) : ℤ) : ℚ) := by
    exact_mod_cast h1
  linarith

theorem round2_intCast (n : ℤ) : round2 (n : ℚ) = n := by
  unfold round2
  have : ((n : ℚ) * 100) = ((n * 100 : ℤ) : ℚ) := by push_cast; ring
  rw [this, round_intCast]
  push_cast
  field_simp

/-! ## Claim C6: the workload availability formula and the 95-versus-50
comparison -/

theorem get_weights_cases (p : String) :
    get_weights p = weightsHIGH ∨ get_weights p = weightsMEDIUM ∨ get_weights p = weightsLOW := by
  unfold get_weights
  split_ifs
  · exact Or.inr (Or.inl rfl)
  · simp only [List.lookup]
    rcases h1 : (upperString p == "HIGH")
    · rcases h2 : (upperString p == "MEDIUM")
      · rcases h3 : (upperString p == "LOW")
        · exact Or.inr (Or.inl rfl)
        · exact Or.inr (Or.inr rfl)
      · exact Or.inr (Or.inl rfl)
    · exact Or.inl rfl

/-- The suitability total at a fixed workload percentage, with required
skills present, is the unclamped weighted blend (the blend already lies in
`[0,1]`). -/
theorem total_score_eq_blend (cw : ℚ) (required : List String) (p : List (String × ℚ))
    (w : Weights) (hreq : required ≠ [])
    (hp : ∀ q ∈ p, 0 ≤ q.2 ∧ q.2 ≤ 1)
    (hw : w = weightsHIGH ∨ w = weightsMEDIUM ∨ w = weightsLOW) :
    calculate_total_score cw required p w =
      calculate_skill_match_score p required * w.skill +
        calculate_coverage_score p required * w.coverage +
        calculate_experience_score p required * w.experience +
        calculate_workload_score cw * w.workload := by
  unfold calculate_total_score
  rw [if_neg hreq]
  obtain ⟨hs0, hs1⟩ := skill_match_score_bounds p required
  obtain ⟨hc0, hc1⟩ := coverage_score_bounds p required
  obtain ⟨he0, he1⟩ := experience_score_bounds p required hp
  have hw0 : 0 ≤ calculate_workload_score cw := clamp01_nonneg _
  have hw1 : calculate_workload_score cw ≤ 1 := clamp01_le_one _
  apply clamp01_eq_self
  · rcases hw with rfl | rfl | rfl <;>
      simp only [weightsHIGH, weightsMEDIUM, weightsLOW] <;> nlinarith
  · rcases hw with rfl | rfl | rfl <;>
      simp only [weightsHIGH, weightsMEDIUM, weightsLOW] <;> nlinarith

/-- C6: the workload availability score is `(1 - cw/100)` times the
stepwise penalty (0.7 above 90, 0.85 between 80 and 90, 1 below), clamped
to `[0,1]`, where `cw` is the active-assignment count over capacity 5 as a
percentage capped at 100; and at equal skill profiles the suitability
score computed at workload percentage 95 is strictly below the one
computed at workload percentage 50. -/
theorem claim6_workload_formula_and_penalty :
    (∀ e : Employee,
        calculate_workload_score (current_workload e) =
          claim_workload_score (current_workload e) ∧
        current_workload e = min 100 ((e.active_assignments : ℚ) / 5 * 100)) ∧
      (∀ (priority : String) (profile : List (String × ℚ)) (required : List String),
        (∀ q ∈ profile, 0 ≤ q.2 ∧ q.2 ≤ 1) →
        round2 (calculate_total_score 95 required profile (get_weights priority) * 100) <
          round2 (calculate_total_score 50 required profile (get_weights priority) * 100)) := by
  constructor
  · intro e
    exact ⟨calculate_workload_score_eq_claim _, rfl⟩
  · intro priority profile required hp
    have h95 : calculate_workload_score 95 = 7/200 := by
      norm_num [calculate_workload_score, clamp]
    have h50 : calculate_workload_score 50 = 1/2 := by
      norm_num [calculate_workload_score, clamp]
    by_cases hreq : required = []
    · subst hreq
      unfold calculate_total_score
      rw [if_pos rfl, if_pos rfl, h95, h50]
      apply round2_lt
      norm_num
    · have hw := get_weights_cases priority
      rw [total_score_eq_blend 95 required profile _ hreq hp hw,
        total_score_eq_blend 50 required profile _ hreq hp hw, h95, h50]
      apply round2_lt
      rcases hw with hww | hww | hww <;> rw [hww] <;>
        simp only [weightsHIGH, weightsMEDIUM, weightsLOW] <;> ring_nf <;> linarith

/-- Witness for C6's second part at priority HIGH and a one-entry profile. -/
theorem claim6_witness :
    (∀ q ∈ [("python", (1:ℚ)/2)], 0 ≤ q.2 ∧ q.2 ≤ 1) ∧
      round2 (calculate_total_score 95 ["python"] [("python", (1:ℚ)/2)]
          (get_weights "HIGH") * 100) <
        round2 (calculate_total_score 50 ["python"] [("python", (1:ℚ)/2)]
          (get_weights "HIGH") * 100) :=
  ⟨by intro q hq; fin_cases hq <;> constructor <;> norm_num,
    claim6_workload_formula_and_penalty.2 "HIGH" [("python", (1:ℚ)/2)] ["python"]
      (by intro q hq; fin_cases hq <;> constructor <;> norm_num)⟩

/-! ## Claim C3: zero required skills yield the workload score alone -/

theorem round2_workload_exact_n (n : ℕ) :
    round2 (calculate_workload_score (min 100 ((n : ℚ) / 5 * 100)) * 100) =
      calculate_workload_score (min 100 ((n : ℚ) / 5 * 100)) * 100 := by
  by_cases h5 : 5 ≤ n
  · have hcw : min 100 ((n : ℚ) / 5 * 100) = 100 := by
      apply min_eq_left
      have : (5 : ℚ) ≤ (n : ℚ) := by exact_mod_cast h5
      linarith
    rw [hcw]
    norm_num [calculate_workload_score, clamp, round2]
  · push_neg at h5
    interval_cases n <;> with_unfolding_all decide

theorem round2_workload_exact (e : Employee) :
    round2 (calculate_workload_score (current_workload e) * 100) =
      calculate_workload_score (current_workload e) * 100 :=
  round2_workload_exact_n e.active_assignments

/-- C3: when the task's required skills normalize to the empty list, the
suitability score equals the workload availability score times 100
exactly, and it does not depend on the employee's skill records. -/
theorem claim3_zero_required_skills (e : Employee) (t : Task) (rs : List String)
    (h : normalize_required_skills rs = []) :
    calculate_suitability_score e t rs =
        calculate_workload_score (current_workload e) * 100 ∧
      (∀ sk : List SkillRecord,
        calculate_suitability_score ⟨e.id, e.empName, e.title, sk, e.active_assignments⟩ t rs =
          calculate_suitability_score e t rs) := by
  constructor
  · unfold calculate_suitability_score
    rw [h]
    unfold calculate_total_score
    rw [if_pos rfl]
    exact round2_workload_exact e
  · intro sk
    unfold calculate_suitability_score
    rw [h]
    unfold calculate_total_score
    rw [if_pos rfl, if_pos rfl]
    rfl

/-- Witness for C3: an employee with two skills and one active assignment,
and a required list that normalizes to empty. -/
theorem claim3_witness :
    normalize_required_skills ["", "()"] = [] ∧
      calculate_suitability_score
          ⟨"e1", "Alice", "Dev", [⟨"python", 9/10, "MANUAL"⟩], 1⟩ ⟨"HIGH", ["", "()"]⟩
          ["", "()"] =
        calculate_workload_score
          (current_workload ⟨"e1", "Alice", "Dev", [⟨"python", 9/10, "MANUAL"⟩], 1⟩) * 100 := by
  have h : normalize_required_skills ["", "()"] = [] := by with_unfolding_all decide
  exact ⟨h,
    (claim3_zero_required_skills ⟨"e1", "Alice", "Dev", [⟨"python", 9/10, "MANUAL"⟩], 1⟩
      ⟨"HIGH", ["", "()"]⟩ ["", "()"] h).1⟩

/-! ## Claim C2: the ranking contract of `find_best_matches` -/

/-- Stability of the descending insertion sort: the entries of any fixed
score keep their original relative order. -/
theorem insertionSort_filter_score (l : List MatchResult) (s : ℚ) :
    (l.insertionSort byScoreDesc).filter (fun m => decide (m.suitability_score = s)) =
      l.filter (fun m => decide (m.suitability_score = s)) := by
  set p := fun m : MatchResult => decide (m.suitability_score = s) with hp
  have hpair : (l.filter p).Pairwise byScoreDesc := by
    apply List.pairwise_of_forall_mem_list
    intro a ha b hb
    have ha' := List.of_mem_filter ha
    have hb' := List.of_mem_filter hb
    rw [hp] at ha' hb'
    simp only [decide_eq_true_eq] at ha' hb'
    unfold byScoreDesc
    rw [ha', hb']
  have hsub : List.Sublist (l.filter p) (l.insertionSort byScoreDesc) :=
    List.sublist_insertionSort hpair (List.filter_sublist l)
  have hidem : (l.filter p).filter p = l.filter p :=
    List.filter_eq_self.mpr (fun a ha => List.of_mem_filter ha)
  have hsub2 : List.Sublist (l.filter p) ((l.insertionSort byScoreDesc).filter p) := by
    have := hsub.filter p
    rwa [hidem] at this
  have hlen : ((l.insertionSort byScoreDesc).filter p).length = (l.filter p).length :=
    ((List.perm_insertionSort byScoreDesc l).filter p).length_eq
  exact (hsub2.eq_of_length hlen.symm).symm

/-- Filtering a prefix of a list yields an initial segment of the filtered
list. -/
theorem filter_take_append {α : Type} (p : α → Bool) (n : ℕ) (l : List α) :
    ∃ t, (l.take n).filter p ++ t = l.filter p := by
  induction l generalizing n with
  | nil => exact ⟨[], by simp⟩
  | cons a l ih =>
    cases n with
    | zero => exact ⟨(a :: l).filter p, by simp⟩
    | succ n =>
      obtain ⟨t, ht⟩ := ih n
      by_cases hpa : p a
      · exact ⟨t, by simp [List.filter_cons, hpa, ht]⟩
      · exact ⟨t, by simp [List.filter_cons, hpa, ht]⟩

theorem mem_match_candidates_score {m : MatchResult} {t : Task} {employees : List Employee}
    {min_score : ℚ} (h : m ∈ match_candidates t employees min_score) :
    min_score ≤ m.suitability_score := by
  unfold match_candidates at h
  obtain ⟨e, -, hfe⟩ := List.mem_filterMap.mp h
  dsimp only at hfe
  by_cases hsc : min_score ≤
      round2 (calculate_total_score (current_workload e)
        (normalize_required_skills t.required_skills) (build_skill_profile e)
        (get_weights t.priority) * 100)
  · rw [if_pos hsc] at hfe
    cases Option.some.inj hfe
    exact hsc
  · rw [if_neg hsc] at hfe
    cases hfe

/-- C2: `find_best_matches` returns at most `limit` entries, none scoring
below `min_score`, sorted non-increasingly by suitability score, and
entries of equal score keep the original candidate order (the returned
entries of any fixed score form an initial segment of the pre-sort
candidates of that score, in order). -/
theorem claim2_find_best_matches_spec (t : Task) (employees : List Employee) (limit : ℕ)
    (min_score : ℚ) :
    (find_best_matches t employees limit min_score).length ≤ limit ∧
      (∀ m ∈ find_best_matches t employees limit min_score,
        min_score ≤ m.suitability_score) ∧
      List.Sorted byScoreDesc (find_best_matches t employees limit min_score) ∧
      (∀ s : ℚ, ∃ rest,
        (find_best_matches t employees limit min_score).filter
            (fun m => decide (m.suitability_score = s)) ++ rest =
          (match_candidates t employees min_score).filter
            (fun m => decide (m.suitability_score = s))) := by
  refine ⟨List.length_take_le _ _, ?_, ?_, ?_⟩
  · intro m hm
    have hm1 : m ∈ (match_candidates t employees min_score).insertionSort byScoreDesc :=
      List.mem_of_mem_take hm
    have hm2 : m ∈ match_candidates t employees min_score :=
      (List.perm_insertionSort byScoreDesc _).mem_iff.mp hm1
    exact mem_match_candidates_score hm2
  · exact ((List.sorted_insertionSort byScoreDesc _).sublist (List.take_sublist _ _))
  · intro s
    obtain ⟨rest, hrest⟩ := filter_take_append
      (fun m : MatchResult => decide (m.suitability_score = s)) limit
      ((match_candidates t employees min_score).insertionSort byScoreDesc)
    refine ⟨rest, ?_⟩
    rw [← insertionSort_filter_score (match_candidates t employees min_score) s, ← hrest]
    rfl

/-! ## Claims C5 and C8: behaviour of `extract_skills` -/

theorem toLower_of_isWhitespace {c : Char} (h : c.isWhitespace) : c.toLower = c := by
  have h' : c = ' ' ∨ c = '\t' ∨ c = '\r' ∨ c = '\n' := by
    simpa [Char.isWhitespace, or_assoc] using h
  rcases h' with rfl | rfl | rfl | rfl <;> decide

/-- A vocabulary alternative that starts with a non-whitespace character
(all of them do). -/
def altHeadOk : List Char → Bool
  | [] => false
  | c :: _ => !c.isWhitespace

/-- A component pattern that starts with a literal whose first character is
not whitespace (all header and compound patterns do). -/
def patHeadOk : List PatComp → Bool
  | PatComp.lit s :: _ =>
    match s.data with
    | [] => false
    | c :: _ => !c.isWhitespace
  | _ => false

theorem matchPre_ws_none {a t : List Char} {c0 : Char} {arest : List Char}
    (ha : a = c0 :: arest) (hc0 : ¬ c0.isWhitespace = true)
    (ht : ∀ c ∈ t, c.isWhitespace) : matchPre a t = none := by
  subst ha
  cases t with
  | nil => rfl
  | cons c t' =>
    have hcw := ht c (List.mem_cons_self c t')
    have hne : (c0 == c) = false := by
      apply beq_false_of_ne
      intro hEq
      exact hc0 (hEq ▸ hcw)
    simp [matchPre, hne]

theorem tryAlts_ws_none (alts : List (List Char)) (t : List Char)
    (halts : ∀ a ∈ alts, altHeadOk a = true)
    (ht : ∀ c ∈ t, c.isWhitespace) : tryAlts alts t = none := by
  induction alts with
  | nil => rfl
  | cons a rest ih =>
    have hok := halts a (List.mem_cons_self a rest)
    cases a with
    | nil => cases hok
    | cons c0 arest =>
      have hc0 : ¬ c0.isWhitespace = true := by
        simpa [altHeadOk] using hok
      unfold tryAlts
      rw [matchPre_ws_none rfl hc0 ht]
      exact ih (fun x hx => halts x (List.mem_cons_of_mem _ hx))

theorem scanVocab_ws_nil (alts : List (List Char))
    (halts : ∀ a ∈ alts, altHeadOk a = true) :
    ∀ (fuel : ℕ) (t : List Char) (prev : Bool), (∀ c ∈ t, c.isWhitespace) →
      scanVocab alts fuel t prev = [] := by
  intro fuel
  induction fuel with
  | zero => intro t prev _; rfl
  | succ fuel ih =>
    intro t prev ht
    cases t with
    | nil => rfl
    | cons c t' =>
      have ht' : ∀ x ∈ t', x.isWhitespace := fun x hx => ht x (List.mem_cons_of_mem c hx)
      unfold scanVocab
      by_cases hprev : prev
      · rw [if_pos hprev]
        exact ih t' _ ht'
      · rw [if_neg hprev, tryAlts_ws_none alts _ halts ht]
        exact ih t' _ ht'

theorem matchPreCI_ws_none {c0 : Char} {srest : List Char}
    (hc0 : ¬ c0.isWhitespace = true) (t : List Char)
    (ht : ∀ c ∈ t, c.isWhitespace) : matchPreCI (c0 :: srest) t = none := by
  cases t with
  | nil => rfl
  | cons c t' =>
    have hcw := ht c (List.mem_cons_self c t')
    have hne : (c0 == c.toLower) = false := by
      apply beq_false_of_ne
      intro hEq
      rw [toLower_of_isWhitespace hcw] at hEq
      exact hc0 (hEq ▸ hcw)
    simp [matchPreCI, hne]

theorem matchComps_ws_none (comps : List PatComp) (t : List Char)
    (hok : patHeadOk comps = true) (ht : ∀ c ∈ t, c.isWhitespace) :
    matchComps comps t = none := by
  cases comps with
  | nil => cases hok
  | cons hd cs =>
    cases hd with
    | lit s =>
      simp only [patHeadOk] at hok
      rcases hs : s.data with _ | ⟨c0, srest⟩
      · rw [hs] at hok
        simp at hok
      · rw [hs] at hok
        simp only [Bool.not_eq_true'] at hok
        have hc0 : ¬ c0.isWhitespace = true := by simp [hok]
        unfold matchComps
        rw [hs, matchPreCI_ws_none hc0 t ht]
    | opt c => simp [patHeadOk] at hok
    | ws1 => simp [patHeadOk] at hok
    | ws0 => simp [patHeadOk] at hok

theorem scanPat_ws_nil (comps : List PatComp) (hok : patHeadOk comps = true) :
    ∀ (fuel : ℕ) (t : List Char), (∀ c ∈ t, c.isWhitespace) →
      scanPat comps fuel t = [] := by
  intro fuel
  induction fuel with
  | zero => intro t _; rfl
  | succ fuel ih =>
    intro t ht
    cases t with
    | nil => rfl
    | cons c t' =>
      unfold scanPat
      rw [matchComps_ws_none comps _ hok ht]
      exact ih t' (fun x hx => ht x (List.mem_cons_of_mem c hx))

theorem extract_skill_sections_ws (s : String) (h : ∀ c ∈ s.data, c.isWhitespace) :
    extract_skill_sections s = [] := by
  unfold extract_skill_sections
  have hpat : ∀ hp ∈ header_patterns, patHeadOk hp = true := by decide
  have hflat : header_patterns.flatMap (fun hp =>
      (scanPat hp s.data.length s.data).flatMap (fun m =>
        ((splitDelims (m.2.take 500)).filterMap (fun item0 =>
          let item := trimWS item0
          if item ≠ [] ∧ 2 < item.length ∧ item.length < 50 ∧ item.any (fun c => c.isAlphanum)
          then some (String.mk item) else none)))) = [] := by
    apply List.flatMap_eq_nil_iff.mpr
    intro hp hhp
    rw [scanPat_ws_nil hp (hpat hp hhp) s.data.length s.data h]
    rfl
  dsimp only
  rw [hflat]
  rfl

theorem extract_compound_skills_ws (s : String) (h : ∀ c ∈ s.data, c.isWhitespace) :
    extract_compound_skills s = [] := by
  unfold extract_compound_skills
  have hpat : ∀ cp ∈ compound_patterns, patHeadOk cp = true := by decide
  have hlower : ∀ c ∈ s.data.map Char.toLower, c.isWhitespace := by
    intro c hc
    obtain ⟨c', hc', rfl⟩ := List.mem_map.mp hc
    rw [toLower_of_isWhitespace (h c' hc')]
    exact h c' hc'
  have hflat : compound_patterns.flatMap (fun cp =>
      (scanPat cp (s.data.map Char.toLower).length (s.data.map Char.toLower)).map
        (fun m => String.mk m.1)) = [] := by
    apply List.flatMap_eq_nil_iff.mpr
    intro cp hcp
    rw [scanPat_ws_nil cp (hpat cp hcp) _ _ hlower]
    rfl
  dsimp only
  rw [hflat]
  rfl

theorem found_all_ws (s : String) (h : ∀ c ∈ s.data, c.isWhitespace) :
    found_all s = [] := by
  unfold found_all
  dsimp only
  have halts : ∀ a ∈ skills_pattern_alternatives.map String.data, altHeadOk a = true := by
    with_unfolding_all decide
  have hlower : ∀ c ∈ s.data.map Char.toLower, c.isWhitespace := by
    intro c hc
    obtain ⟨c', hc', rfl⟩ := List.mem_map.mp hc
    rw [toLower_of_isWhitespace (h c' hc')]
    exact h c' hc'
  rw [scanVocab_ws_nil _ halts _ _ false hlower, extract_skill_sections_ws s h,
    extract_compound_skills_ws s h]
  rfl

/-- C5 (amended): empty or whitespace-only text yields the empty list;
falsy (None-like) input returns the empty list without raising; every
string input returns a result without raising; a truthy non-string input
raises `AttributeError` instead of returning `[]`. -/
theorem claim5_extract_skills_degenerate :
    (∀ (s : String) (mc : ℚ), (∀ c ∈ s.data, c.isWhitespace) → extract_skills s mc = []) ∧
      (∀ mc : ℚ, extract_skills_py PyVal.none mc = Except.ok []) ∧
      (∀ (s : String) (mc : ℚ), ∃ r, extract_skills_py (PyVal.str s) mc = Except.ok r) ∧
      (∀ mc : ℚ, extract_skills_py (PyVal.int 1) mc = Except.error "AttributeError") := by
  refine ⟨?_, fun _ => rfl, ?_, fun _ => rfl⟩
  · intro s mc hws
    unfold extract_skills
    by_cases hs : s = ""
    · rw [if_pos hs]
    · rw [if_neg hs]
      rw [found_all_ws s hws]
      rfl
  · intro s mc
    unfold extract_skills_py
    by_cases hs : pyFalsy (PyVal.str s)
    · rw [if_pos hs]
      exact ⟨[], rfl⟩
    · rw [if_neg hs]
      exact ⟨extract_skills s mc, rfl⟩

/-- C5 counterexample: the truthy non-string input `1` raises
`AttributeError` (the code only short-circuits falsy inputs before calling
`text.lower()`), so it does not return the empty list. -/
theorem claim5_counterexample :
    extract_skills_py (PyVal.int 1) (3/10) = Except.error "AttributeError" ∧
      extract_skills_py (PyVal.int 1) (3/10) ≠ Except.ok [] := by
  constructor
  · rfl
  · intro h
    cases h

/-- Witness for C5 on the whitespace-only string of two blanks. -/
theorem claim5_witness :
    (∀ c ∈ ("  " : String).data, c.isWhitespace) ∧ extract_skills "  " (3/10) = [] :=
  ⟨by decide, claim5_extract_skills_degenerate.1 "  " (3/10) (by decide)⟩

/-- C8: keys found with occurrence count above 1 get the repetition boost
`min(0.15, 0.05*(count-1))` capped at 1; a text mentioning a skill three
times scores strictly higher than one mentioning it once; and no returned
confidence ever exceeds 1. -/
theorem claim8_repetition_boost :
    (∀ (text : String) (k : String) (e : ExtractedEntry),
        (k, e) ∈ found_all text → 1 < e.count →
        (k, ExtractedEntry.mk e.name
            (min 1 (e.confidence_score + min (15/100) (5/100 * ((e.count : ℚ) - 1))))
            e.count) ∈ boost_repetitions (found_all text)) ∧
      (extract_skills "python python python" (3/10) = [ExtractedSkill.mk "Python" (9/10)] ∧
        extract_skills "python" (3/10) = [ExtractedSkill.mk "Python" (4/5)] ∧
        (4/5 : ℚ) < 9/10) ∧
      (∀ (text : String) (mc : ℚ), ∀ x ∈ extract_skills text mc,
        x.confidence_score ≤ 1) := by
  refine ⟨?_, ⟨?_, ?_, by norm_num⟩, ?_⟩
  · intro text k e hmem hc
    unfold boost_repetitions
    have := List.mem_map_of_mem
      (fun p : String × ExtractedEntry =>
        if 1 < p.2.count then
          (p.1,
            ExtractedEntry.mk p.2.name
              (min 1 (p.2.confidence_score + min (15/100) (5/100 * ((p.2.count : ℚ) - 1))))
              p.2.count)
        else p) hmem
    dsimp only at this
    rw [if_pos hc] at this
    exact this
  · with_unfolding_all decide
  · with_unfolding_all decide
  · intro text mc x hx
    unfold extract_skills at hx
    by_cases ht : text = ""
    · rw [if_pos ht] at hx
      cases hx
    · rw [if_neg ht] at hx
      dsimp only at hx
      have hx2 := (List.perm_insertionSort
        (fun a b : ExtractedSkill => b.confidence_score ≤ a.confidence_score) _).mem_iff.mp hx
      obtain ⟨p, -, rfl⟩ := List.mem_map.mp hx2
      exact min_le_left _ _

/-- Witness for C8's boost clause on the two-mention text. -/
theorem claim8_witness :
    ("python", ExtractedEntry.mk "Python" (4/5) 2) ∈ found_all "python python" ∧
      (1:ℕ) < 2 ∧
      ("python", ExtractedEntry.mk "Python"
          (min 1 (4/5 + min (15/100) (5/100 * (((2:ℕ) : ℚ) - 1)))) 2) ∈
        boost_repetitions (found_all "python python") :=
  ⟨by with_unfolding_all decide, by norm_num,
    claim8_repetition_boost.1 "python python" "python" ⟨"Python", 4/5, 2⟩
      (by with_unfolding_all decide) (by norm_num)⟩

/-! ## Claim C4: idempotency and alias stability of `normalize_skill_key` -/

theorem toNat_ofNat_interval {m : ℕ} (h97 : 97 ≤ m) (h122 : m ≤ 122) :
    (Char.ofNat m).toNat = m := by
  interval_cases m <;> rfl

theorem toLower_def_eq (d : Char) :
    d.toLower = if d.toNat ≥ 65 ∧ d.toNat ≤ 90 then Char.ofNat (d.toNat + 32) else d := rfl

theorem toLower_toLower (c : Char) : c.toLower.toLower = c.toLower := by
  by_cases h : c.toNat ≥ 65 ∧ c.toNat ≤ 90
  · have hc : c.toLower = Char.ofNat (c.toNat + 32) := by
      rw [toLower_def_eq, if_pos h]
    rw [hc, toLower_def_eq, toNat_ofNat_interval (by omega) (by omega), if_neg (by omega)]
  · have hc : c.toLower = c := by
      rw [toLower_def_eq, if_neg h]
    rw [hc, hc]

theorem mem_of_mem_trimWS {c : Char} {l : List Char} (h : c ∈ trimWS l) : c ∈ l := by
  unfold trimWS at h
  rw [List.mem_reverse] at h
  have h1 := (List.dropWhile_sublist Char.isWhitespace).subset h
  rw [List.mem_reverse] at h1
  exact (List.dropWhile_sublist Char.isWhitespace).subset h1

theorem mem_ampExpand {c : Char} {l : List Char} (h : c ∈ ampExpand l) :
    c ∈ (['a', 'n', 'd'] : List Char) ∨ (c ∈ l ∧ c ≠ '&') := by
  unfold ampExpand at h
  obtain ⟨c', hc', hmem⟩ := List.mem_flatMap.mp h
  by_cases hamp : c' = '&'
  · rw [if_pos hamp] at hmem
    exact Or.inl hmem
  · rw [if_neg hamp] at hmem
    rcases List.mem_singleton.mp hmem with rfl
    exact Or.inr ⟨hc', hamp⟩

theorem mem_squeezeWS {c : Char} :
    ∀ (b : Bool) (t : List Char), c ∈ squeezeWS b t →
      c = ' ' ∨ (c ∈ t ∧ c.isWhitespace = false) := by
  intro b t
  induction t generalizing b with
  | nil => intro h; cases h
  | cons d t' ih =>
    intro h
    unfold squeezeWS at h
    by_cases hd : d.isWhitespace
    · rw [if_pos hd] at h
      by_cases hb : b
      · rw [if_pos hb] at h
        rcases ih true h with h' | ⟨hm, hw⟩
        · exact Or.inl h'
        · exact Or.inr ⟨List.mem_cons_of_mem d hm, hw⟩
      · rw [if_neg hb] at h
        rcases List.mem_cons.mp h with rfl | h'
        · exact Or.inl rfl
        · rcases ih true h' with h'' | ⟨hm, hw⟩
          · exact Or.inl h''
          · exact Or.inr ⟨List.mem_cons_of_mem d hm, hw⟩
    · rw [if_neg hd] at h
      rcases List.mem_cons.mp h with rfl | h'
      · exact Or.inr ⟨List.mem_cons_self c t', by simpa using hd⟩
      · rcases ih false h' with h'' | ⟨hm, hw⟩
        · exact Or.inl h''
        · exact Or.inr ⟨List.mem_cons_of_mem d hm, hw⟩

theorem squeezeWS_head_true {t : List Char} {c : Char}
    (h : (squeezeWS true t).head? = some c) : c.isWhitespace = false := by
  induction t with
  | nil => cases h
  | cons d t' ih =>
    unfold squeezeWS at h
    by_cases hd : d.isWhitespace
    · rw [if_pos hd, if_pos rfl] at h
      exact ih h
    · rw [if_neg hd] at h
      cases Option.some.inj h
      simpa using hd

theorem squeezeWS_chain : ∀ (b : Bool) (t : List Char), (squeezeWS b t).Chain' noTwoWS := by
  intro b t
  induction t generalizing b with
  | nil => exact List.chain'_nil
  | cons d t' ih =>
    unfold squeezeWS
    by_cases hd : d.isWhitespace
    · rw [if_pos hd]
      by_cases hb : b
      · rw [if_pos hb]
        exact ih true
      · rw [if_neg hb]
        apply List.chain'_cons'.mpr
        refine ⟨?_, ih true⟩
        intro y hy
        unfold noTwoWS
        rw [squeezeWS_head_true hy]
        simp
    · rw [if_neg hd]
      apply List.chain'_cons'.mpr
      refine ⟨?_, ih false⟩
      intro y hy
      unfold noTwoWS
      simp only [hd]
      simp

theorem head?_dropWhile_false {p : Char → Bool} {l : List Char} {c : Char}
    (h : (l.dropWhile p).head? = some c) : p c = false := by
  have := List.head?_dropWhile_not p l
  rw [h] at this
  exact this

theorem getLast?_dropWhile_of_ne_nil {p : Char → Bool} {l : List Char}
    (h : l.dropWhile p ≠ []) : (l.dropWhile p).getLast? = l.getLast? := by
  obtain ⟨t, ht⟩ := List.dropWhile_suffix p (l := l)
  conv_rhs => rw [← ht]
  rw [List.getLast?_append]
  cases hlast : (l.dropWhile p).getLast? with
  | none => exact absurd (List.getLast?_eq_none_iff.mp hlast) h
  | some d => rfl

theorem trimWS_head_not_ws {l : List Char} {c : Char}
    (h : (trimWS l).head? = some c) : c.isWhitespace = false := by
  unfold trimWS at h
  rw [List.head?_reverse] at h
  set A := l.dropWhile Char.isWhitespace with hA
  have hBne : A.reverse.dropWhile Char.isWhitespace ≠ [] := by
    intro hnil
    rw [hnil] at h
    cases h
  rw [getLast?_dropWhile_of_ne_nil hBne, List.getLast?_reverse] at h
  exact head?_dropWhile_false h

theorem trimWS_getLast_not_ws {l : List Char} {c : Char}
    (h : (trimWS l).getLast? = some c) : c.isWhitespace = false := by
  unfold trimWS at h
  rw [List.getLast?_reverse] at h
  exact head?_dropWhile_false h

theorem chain'_dropWhile {p : Char → Bool} {l : List Char}
    (h : l.Chain' noTwoWS) : (l.dropWhile p).Chain' noTwoWS := by
  induction l with
  | nil => exact List.chain'_nil
  | cons a l ih =>
    rw [List.dropWhile_cons]
    split_ifs with hp
    · exact ih h.tail
    · exact h

theorem noTwoWS_symm {a b : Char} (h : noTwoWS a b) : noTwoWS b a := by
  unfold noTwoWS at h ⊢
  rw [and_comm]
  exact h

theorem chain'_reverse_noTwoWS {l : List Char} (h : l.Chain' noTwoWS) :
    l.reverse.Chain' noTwoWS := by
  rw [List.chain'_reverse]
  exact h.imp (fun _ _ hx => noTwoWS_symm hx)

theorem trimWS_chain {l : List Char} (h : l.Chain' noTwoWS) : (trimWS l).Chain' noTwoWS :=
  chain'_reverse_noTwoWS (chain'_dropWhile (chain'_reverse_noTwoWS (chain'_dropWhile h)))

theorem dropWhile_eq_self_of_head {p : Char → Bool} {l : List Char}
    (h : ∀ c, l.head? = some c → p c = false) : l.dropWhile p = l := by
  cases l with
  | nil => rfl
  | cons a l =>
    rw [List.dropWhile_cons, if_neg]
    rw [h a rfl]
    simp

theorem trimWS_eq_self {l : List Char}
    (hh : ∀ c, l.head? = some c → c.isWhitespace = false)
    (hl : ∀ c, l.getLast? = some c → c.isWhitespace = false) : trimWS l = l := by
  unfold trimWS
  rw [dropWhile_eq_self_of_head hh]
  rw [dropWhile_eq_self_of_head (fun c hc => hl c (by rwa [List.head?_reverse] at hc))]
  exact List.reverse_reverse l

theorem getLast?_cons_of_ne {a : Char} {l : List Char} (h : l ≠ []) :
    (a :: l).getLast? = l.getLast? := by
  rcases l with _ | ⟨x, l'⟩
  · exact absurd rfl h
  · exact List.getLast?_cons_cons

theorem replSlash_eq_nil {t : List Char} : replSlash t = [] ↔ t = [] := by
  induction t using replSlash.induct with
  | case1 t ih => rw [replSlash.eq_1]; simp
  | case2 c t hne ih => rw [replSlash.eq_2 c t hne]; simp
  | case3 => simp [replSlash]

theorem replSlash_head? (t : List Char) :
    ∀ d, (replSlash t).head? = some d → d = '/' ∨ t.head? = some d := by
  induction t using replSlash.induct with
  | case1 t ih =>
    intro d hd
    rw [replSlash.eq_1] at hd
    exact Or.inl (Option.some.inj hd).symm
  | case2 c t hne ih =>
    intro d hd
    rw [replSlash.eq_2 c t hne] at hd
    exact Or.inr hd
  | case3 =>
    intro d hd
    cases hd

theorem replSlash_getLast? (t : List Char) :
    ∀ d, (replSlash t).getLast? = some d → d = '/' ∨ t.getLast? = some d := by
  induction t using replSlash.induct with
  | case1 t ih =>
    intro d hd
    rw [replSlash.eq_1] at hd
    by_cases hnil : replSlash t = []
    · rw [hnil] at hd
      exact Or.inl (Option.some.inj hd).symm
    · rw [getLast?_cons_of_ne hnil] at hd
      rcases ih d hd with h' | h'
      · exact Or.inl h'
      · have htne : t ≠ [] := fun ht => hnil (by rw [ht]; rfl)
        rw [List.getLast?_cons_cons, List.getLast?_cons_cons, getLast?_cons_of_ne htne]
        exact Or.inr h'
  | case2 c t hne ih =>
    intro d hd
    rw [replSlash.eq_2 c t hne] at hd
    by_cases hnil : replSlash t = []
    · have htnil : t = [] := replSlash_eq_nil.mp hnil
      subst htnil
      rw [hnil] at hd
      exact Or.inr hd
    · rw [getLast?_cons_of_ne hnil] at hd
      rcases ih d hd with h' | h'
      · exact Or.inl h'
      · have htne : t ≠ [] := fun ht => hnil (by rw [ht]; rfl)
        rw [getLast?_cons_of_ne htne]
        exact Or.inr h'
  | case3 =>
    intro d hd
    cases hd

theorem replSlash_chain {t : List Char} (h : t.Chain' noTwoWS) :
    (replSlash t).Chain' noTwoWS := by
  induction t using replSlash.induct with
  | case1 t ih =>
    rw [replSlash.eq_1]
    apply List.chain'_cons'.mpr
    refine ⟨?_, ih h.tail.tail.tail⟩
    intro y hy
    unfold noTwoWS
    intro ⟨h1, h2⟩
    cases h1
  | case2 c t hne ih =>
    rw [replSlash.eq_2 c t hne]
    apply List.chain'_cons'.mpr
    refine ⟨?_, ih h.tail⟩
    intro y hy
    unfold noTwoWS
    intro ⟨h1, h2⟩
    rcases replSlash_head? t y hy with rfl | hy'
    · cases h2
    · have := (List.chain'_cons'.mp h).1 y hy'
      exact this ⟨h1, h2⟩
  | case3 =>
    exact List.chain'_nil

theorem replSlash_idem {t : List Char} (h : t.Chain' noTwoWS) :
    replSlash (replSlash t) = replSlash t := by
  induction t using replSlash.induct with
  | case1 t ih =>
    rw [replSlash.eq_1]
    have : replSlash ('/' :: replSlash t) = '/' :: replSlash (replSlash t) := rfl
    rw [this, ih h.tail.tail.tail]
  | case2 c t hne ih =>
    rw [replSlash.eq_2 c t hne]
    have hnopat : ∀ y : List Char, c = ' ' → replSlash t = '/' :: ' ' :: y → False := by
      intro y hc hrep
      subst hc
      rcases ht : t with _ | ⟨d, t₂⟩
      · rw [ht] at hrep
        cases hrep
      · by_cases hp : d = ' ' ∧ ∃ t₃, t₂ = '/' :: ' ' :: t₃
        · obtain ⟨rfl, t₃, rfl⟩ := hp
          have hhead := (List.chain'_cons'.mp (ht ▸ h)).1 ' ' rfl
          exact hhead ⟨by decide, by decide⟩
        · have hform : ∀ t₃, d = ' ' → t₂ = '/' :: ' ' :: t₃ → False := by
            intro t₃ hd ht₂
            exact hp ⟨hd, t₃, ht₂⟩
          rw [ht, replSlash.eq_2 d t₂ hform] at hrep
          have hd : d = '/' := (List.cons.inj hrep).1
          have hrep₂ : replSlash t₂ = ' ' :: y := (List.cons.inj hrep).2
          have hhead : (replSlash t₂).head? = some ' ' := by rw [hrep₂]; rfl
          rcases replSlash_head? t₂ ' ' hhead with h' | h'
          · cases h'
          · rcases t₂ with _ | ⟨x, t₃⟩
            · cases h'
            · cases Option.some.inj h'
              exact hne t₃ rfl (by rw [ht, hd])
    rw [replSlash.eq_2 c (replSlash t) hnopat, ih h.tail]
  | case3 =>
    rfl

theorem replSlash_mem {c : Char} : ∀ {t : List Char}, c ∈ replSlash t → c = '/' ∨ c ∈ t := by
  intro t
  induction t using replSlash.induct with
  | case1 t ih =>
    intro hc
    rw [replSlash.eq_1] at hc
    rcases List.mem_cons.mp hc with rfl | hc'
    · exact Or.inl rfl
    · rcases ih hc' with h' | h'
      · exact Or.inl h'
      · exact Or.inr (by simp [h'])
  | case2 d t hne ih =>
    intro hc
    rw [replSlash.eq_2 d t hne] at hc
    rcases List.mem_cons.mp hc with rfl | hc'
    · exact Or.inr (List.mem_cons_self c t)
    · rcases ih hc' with h' | h'
      · exact Or.inl h'
      · exact Or.inr (List.mem_cons_of_mem d h')
  | case3 =>
    intro hc
    cases hc

theorem map_id_of_forall {f : Char → Char} {l : List Char} (h : ∀ c ∈ l, f c = c) :
    l.map f = l := by
  induction l with
  | nil => rfl
  | cons a l ih =>
    rw [List.map_cons, h a (List.mem_cons_self a l),
      ih (fun c hc => h c (List.mem_cons_of_mem a hc))]

theorem ampExpand_id {l : List Char} (h : ∀ c ∈ l, c ≠ '&') : ampExpand l = l := by
  induction l with
  | nil => rfl
  | cons a l ih =>
    unfold ampExpand
    rw [List.flatMap_cons, if_neg (h a (List.mem_cons_self a l))]
    have : ampExpand l = l := ih (fun c hc => h c (List.mem_cons_of_mem a hc))
    unfold ampExpand at this
    rw [this]
    rfl

theorem squeezeWS_eq_self {t : List Char} (hws : ∀ c ∈ t, c.isWhitespace → c = ' ')
    (hch : t.Chain' noTwoWS) :
    squeezeWS false t = t ∧
      ((∀ c, t.head? = some c → c.isWhitespace = false) → squeezeWS true t = t) := by
  induction t with
  | nil => exact ⟨rfl, fun _ => rfl⟩
  | cons d t' ih =>
    have ihs := ih (fun c hc hw => hws c (List.mem_cons_of_mem d hc) hw) hch.tail
    by_cases hd : d.isWhitespace
    · have hd' : d = ' ' := hws d (List.mem_cons_self d t') hd
      have hthead : ∀ c, t'.head? = some c → c.isWhitespace = false := by
        intro c hc
        have := (List.chain'_cons'.mp hch).1 c hc
        unfold noTwoWS at this
        by_contra hcw
        exact this ⟨hd, by simpa using hcw⟩
      constructor
      · show squeezeWS false (d :: t') = d :: t'
        unfold squeezeWS
        rw [if_pos hd, if_neg (by simp), ihs.2 hthead, hd']
      · intro hhead
        have := hhead d rfl
        rw [hd] at this
        cases this
    · have h1 : squeezeWS false (d :: t') = d :: t' := by
        unfold squeezeWS
        rw [if_neg hd, ihs.1]
      refine ⟨h1, fun _ => ?_⟩
      show squeezeWS true (d :: t') = d :: t'
      unfold squeezeWS
      rw [if_neg hd, ihs.1]

theorem cleanChars_good (l : List Char) : ∀ c ∈ cleanChars l, goodChar c := by
  intro c hc
  unfold cleanChars at hc
  rcases replSlash_mem hc with rfl | hc1
  · refine ⟨by decide, by decide, by decide, by decide, by decide⟩
  · have hc2 := mem_of_mem_trimWS hc1
    rcases mem_squeezeWS false _ hc2 with rfl | ⟨hc3, hnws⟩
    · exact ⟨by decide, by decide, by decide, by decide, fun _ => rfl⟩
    · obtain ⟨c1, hc4, hcu⟩ := List.mem_map.mp hc3
      have hcu' : c = c1 ∧ c1 ≠ '_' := by
        unfold underscoreToSpace at hcu
        by_cases h1 : c1 = '_'
        · rw [if_pos h1] at hcu
          rw [← hcu] at hnws
          cases hnws
        · rw [if_neg h1] at hcu
          exact ⟨hcu.symm, h1⟩
      obtain ⟨rfl, hund⟩ := hcu'
      obtain ⟨c2, hc5, hcb⟩ := List.mem_map.mp hc4
      have hcb' : c = c2 ∧ c2 ∉ bracketChars := by
        unfold bracketToSpace at hcb
        by_cases h2 : c2 ∈ bracketChars
        · rw [if_pos h2] at hcb
          rw [← hcb] at hnws
          cases hnws
        · rw [if_neg h2] at hcb
          exact ⟨hcb.symm, h2⟩
      obtain ⟨rfl, hbr⟩ := hcb'
      rcases mem_ampExpand hc5 with hand | ⟨hc6, hamp⟩
      · fin_cases hand
        · exact ⟨by decide, by decide, by decide, by decide, by decide⟩
        · exact ⟨by decide, by decide, by decide, by decide, by decide⟩
        · exact ⟨by decide, by decide, by decide, by decide, by decide⟩
      · obtain ⟨c3, -, rfl⟩ := List.mem_map.mp hc6
        refine ⟨toLower_toLower c3, hamp, hbr, hund, fun hw => absurd hw (by simp [hnws])⟩

theorem cleanChars_chain (l : List Char) : (cleanChars l).Chain' noTwoWS :=
  replSlash_chain (trimWS_chain (squeezeWS_chain false _))

theorem cleanChars_head_not_ws {l : List Char} {c : Char}
    (h : (cleanChars l).head? = some c) : c.isWhitespace = false := by
  unfold cleanChars at h
  rcases replSlash_head? _ c h with rfl | h'
  · rfl
  · exact trimWS_head_not_ws h'

theorem cleanChars_getLast_not_ws {l : List Char} {c : Char}
    (h : (cleanChars l).getLast? = some c) : c.isWhitespace = false := by
  unfold cleanChars at h
  rcases replSlash_getLast? _ c h with rfl | h'
  · rfl
  · exact trimWS_getLast_not_ws h'

theorem replSlash_cleanChars (l : List Char) : replSlash (cleanChars l) = cleanChars l :=
  replSlash_idem (trimWS_chain (squeezeWS_chain false _))

theorem cleanChars_eq_self {t : List Char} (hgood : ∀ c ∈ t, goodChar c)
    (hch : t.Chain' noTwoWS)
    (hh : ∀ c, t.head? = some c → c.isWhitespace = false)
    (hl : ∀ c, t.getLast? = some c → c.isWhitespace = false)
    (hrep : replSlash t = t) :
    cleanChars t = t := by
  unfold cleanChars
  rw [trimWS_eq_self hh hl,
    map_id_of_forall (fun c hc => (hgood c hc).1),
    ampExpand_id (fun c hc => (hgood c hc).2.1),
    map_id_of_forall (fun c hc => by
      obtain ⟨c', hc', rfl⟩ := List.mem_map.mp hc
      unfold underscoreToSpace bracketToSpace
      by_cases hb : c' ∈ bracketChars
      · rw [if_pos hb, if_neg (by decide)]
      · rw [if_neg hb, if_neg (hgood c' hc').2.2.2.1]),
    map_id_of_forall (fun c hc => by
      unfold bracketToSpace
      rw [if_neg (hgood c hc).2.2.1]),
    (squeezeWS_eq_self (fun c hc hw => (hgood c hc).2.2.2.2 hw) hch).1,
    trimWS_eq_self hh hl, hrep]

theorem cleanChars_idem (l : List Char) : cleanChars (cleanChars l) = cleanChars l :=
  cleanChars_eq_self (cleanChars_good l) (cleanChars_chain l)
    (fun _ hc => cleanChars_head_not_ws hc)
    (fun _ hc => cleanChars_getLast_not_ws hc)
    (replSlash_cleanChars l)

/-- Every alias target is itself a fixed point of cleaning and of the
alias lookup, and is non-empty (checked over the whole table). -/
theorem alias_values_fixed :
    ∀ p ∈ SKILL_ALIASES, cleanChars p.2.data = p.2.data ∧
      ((SKILL_ALIASES.lookup p.2).getD p.2 = p.2) ∧ p.2 ≠ "" := by
  with_unfolding_all decide

/-- C4: `normalize_skill_key` is idempotent on every string, and
alias-stable: `"nodejs"` and `"node.js"` both normalize to `"node.js"`. -/
theorem claim4_normalize_skill_key_idempotent :
    (∀ x : String, normalize_skill_key (normalize_skill_key x) = normalize_skill_key x) ∧
      normalize_skill_key "nodejs" = "node.js" ∧
      normalize_skill_key "node.js" = "node.js" := by
  refine ⟨?_, by with_unfolding_all decide, by with_unfolding_all decide⟩
  intro x
  by_cases hx : x = ""
  · subst hx
    rfl
  · cases hl : SKILL_ALIASES.lookup (String.mk (cleanChars x.data)) with
    | none =>
      have hinner : normalize_skill_key x = String.mk (cleanChars x.data) := by
        unfold normalize_skill_key
        rw [if_neg hx]
        dsimp only
        rw [hl]
        rfl
      rw [hinner]
      by_cases hk : String.mk (cleanChars x.data) = ""
      · rw [hk]
        rfl
      · unfold normalize_skill_key
        rw [if_neg hk]
        dsimp only
        have h2 : cleanChars (String.mk (cleanChars x.data)).data = cleanChars x.data :=
          cleanChars_idem x.data
        rw [h2, hl]
        rfl
    | some v =>
      have hinner : normalize_skill_key x = v := by
        unfold normalize_skill_key
        rw [if_neg hx]
        dsimp only
        rw [hl]
        rfl
      rw [hinner]
      have hfix := alias_values_fixed _ (lookup_mem hl)
      unfold normalize_skill_key
      rw [if_neg hfix.2.2]
      dsimp only
      have h3 : String.mk (cleanChars v.data) = v := by
        rw [hfix.1]
      rw [h3]
      exact hfix.2.1

end ITAS
